import Mathlib

/-!
Verification of the CKA closure tool (`wcka.py`).

Shallow embedding: the class hierarchy of closed CKA terms becomes the
inductive type `Term`; every Python method becomes a Lean function with
the same branch structure.  Python sets are modelled as lists kept free
of duplicates with respect to the printed-form equality used by the
source for `__eq__` and `__hash__`; Python dictionaries become
association lists looked up with the same equality; code that can raise
(a missing key, the `Zero.is_trivial` arity bug, or the unbounded
recursion of `closure`) returns `Option`.
-/

set_option maxHeartbeats 1000000

/-- Closed CKA terms, mirroring the `ClosedTerm` subclasses of the source.
The `Variable` class is used only inside the pretty printer of
`LinearSystem` and never occurs in a closed term, so it is not modelled. -/
inductive Term : Type where
  | Zero : Term
  | One : Term
  | Primitive : String → Term
  | Choice : Term → Term → Term
  | Sequential : Term → Term → Term
  | Parallel : Term → Term → Term
  | Star : Term → Term
  deriving DecidableEq, Repr

namespace Term

/-- Position of each class in the `order` list of `Term.bracket`.
`Variable` occupies index 3 in the source; the index is skipped here so
that all comparisons between the remaining classes are unchanged. -/
def prec : Term → Nat
  | Zero => 0
  | One => 1
  | Primitive _ => 2
  | Star _ => 4
  | Sequential _ _ => 5
  | Parallel _ _ => 6
  | Choice _ _ => 7

/-- Method `Term.bracket`: the rendered child, parenthesised unless the
class of the child precedes (index less or equal) the class of the
operator it is being wrapped in.  The method of the source receives the
child and the parent term; it only uses the child's rendering and the
two precedence indices, which are passed here directly so that the
printer is structurally recursive. -/
def bracket (rendered : String) (child parent : Nat) : String :=
  if child ≤ parent then rendered else "(" ++ rendered ++ ")"

/-- Canonical printed form: the `__str__` methods.  `Sequential` renders
with the empty operator, `Choice` with " + ", `Parallel` with "‖",
`Star` as a postfix "*". -/
def str : Term → String
  | Zero => "0"
  | One => "1"
  | Primitive s => s
  | Choice l r =>
      bracket (str l) l.prec (Choice l r).prec ++ " + " ++
        bracket (str r) r.prec (Choice l r).prec
  | Sequential l r =>
      bracket (str l) l.prec (Sequential l r).prec ++
        bracket (str r) r.prec (Sequential l r).prec
  | Parallel l r =>
      bracket (str l) l.prec (Parallel l r).prec ++ "‖" ++
        bracket (str r) r.prec (Parallel l r).prec
  | Star b => bracket (str b) b.prec (Star b).prec ++ "*"

/-- Method `Term.__eq__`: equality is equality of printed forms. -/
def beq (a b : Term) : Bool := a.str == b.str

/-- Method `__contains__` (the containment test `item in container`),
with the overrides of `Choice`, `Parallel` and `Star`; the default of
`Term` is printed-form equality. -/
def mem : Term → Term → Bool
  | Choice l r, item => beq (Choice l r) item || mem l item || mem r item
  | Parallel l r, item =>
      match item with
      | Parallel a b => (mem l a && mem r b) || (mem r a && mem l b)
      | _ => beq (Parallel l r) item
  | Star b, item =>
      match item with
      | One => true
      | _ => if mem b item then true else beq (Star b) item
  | c, item => beq c item

/-- Constructor test used by the smart constructors (`type(t) is One`). -/
def isOne : Term → Bool
  | One => true
  | _ => false

/-- Constructor test used by the smart constructors (`type(t) is Zero`). -/
def isZero : Term → Bool
  | Zero => true
  | _ => false

/-- Method `Term.__pow__`: sequential composition normalised for
annihilation and units. -/
def pow (self other : Term) : Term :=
  if other.isOne then self
  else if self.isOne then other
  else if other.isZero then Zero
  else if self.isZero then Zero
  else Sequential self other

/-- Method `Term.__floordiv__`: parallel composition normalised for
annihilation and units. -/
def floordiv (self other : Term) : Term :=
  if other.isOne then self
  else if self.isOne then other
  else if other.isZero then Zero
  else if self.isZero then Zero
  else Parallel self other

/-- Method `Term.star` together with the override of `Star` (star is
idempotent) — `One` and `Zero` star to `One`. -/
def star : Term → Term
  | One => One
  | Zero => One
  | Star b => Star b
  | t => Star t

/-- Shared body of the two star-choice simplifications: given the two
sides `l`, `r` of the `Sequential` operand of a sum with `One`, return
the `Star` side when its argument equals the other side
(`1 + a*a → a*` and `1 + aa* → a*`). -/
def starSimp (l r : Term) : Option Term :=
  match l with
  | Star x =>
      if beq x r then some (Star x)
      else
        match r with
        | Star y => if beq y (Star x) then some (Star y) else none
        | _ => none
  | _ =>
      match r with
      | Star y => if beq y l then some (Star y) else none
      | _ => none

/-- Method `Term.__add__`: the default sum, normalised for units and
absorption under containment. -/
def addDefault (self other : Term) : Term :=
  if other.isZero then self
  else if self.isZero then other
  else if mem self other then self
  else if mem other self then other
  else Choice self other

/-- Smart sum with the `One.__add__` and `Sequential.__add__` overrides
(the star-choice simplifications), falling back to `Term.__add__`. -/
def add (self other : Term) : Term :=
  match self, other with
  | One, Sequential l r => (starSimp l r).getD (addDefault One (Sequential l r))
  | Sequential l r, One => (starSimp l r).getD (addDefault (Sequential l r) One)
  | _, _ => addDefault self other

/-- Method `nullable`: whether the empty pomset is in the semantics. -/
def nullable : Term → Bool
  | Zero => false
  | One => true
  | Primitive _ => false
  | Choice l r => l.nullable || r.nullable
  | Sequential l r => l.nullable && r.nullable
  | Parallel l r => l.nullable && r.nullable
  | Star _ => true

/-- Method `is_trivial`.  `Zero.is_trivial` is declared in the source
without the `self` parameter, so invoking it on the instance raises a
`TypeError`; this is modelled by `none`.  The boolean connectives of
`Choice`, `Sequential` and `Parallel` short-circuit as in Python. -/
def isTrivialQ : Term → Option Bool
  | Zero => none
  | One => some false
  | Primitive _ => some false
  | Choice l r => do
      let a ← l.isTrivialQ
      if a then r.isTrivialQ else some false
  | Sequential l r => do
      let a ← l.isTrivialQ
      if a then some true else r.isTrivialQ
  | Parallel l r => do
      let a ← l.isTrivialQ
      if a then some true else r.isTrivialQ
  | Star _ => some false

/-- Method `ClosedTerm.width`: `0` for trivial terms, else the
nontrivial width; propagates the `Zero.is_trivial` failure.  The
`nontrivial_width` method of each class is inlined at its single call
site (the inner match). -/
def widthQ (t : Term) : Option Nat := do
  let b ← t.isTrivialQ
  if b then some 0
  else
    match t with
    | Zero => some 0
    | One => some 0
    | Primitive _ => some 1
    | Choice l r => do
        let a ← widthQ l
        let c ← widthQ r
        some (max a c)
    | Sequential l r => do
        let a ← widthQ l
        let c ← widthQ r
        some (max a c)
    | Parallel l r => do
        let a ← widthQ l
        let c ← widthQ r
        some (a + c)
    | Star b => widthQ b

end Term

/-! Python sets of terms and of pairs of terms are keyed on the hash and
equality of the printed form.  They are modelled as lists without
duplicates up to that equality; iteration order is the insertion order
of the model (the source relies on no particular order). -/

/-- Membership of a term in a set of terms, by printed-form equality. -/
def tmem (x : Term) (xs : List Term) : Bool := xs.any (Term.beq x)

/-- Insert into a set of terms. -/
def tinsert (xs : List Term) (x : Term) : List Term :=
  if tmem x xs then xs else xs ++ [x]

/-- Union of two sets of terms (left operand of `|` first). -/
def tunion (xs ys : List Term) : List Term := ys.foldl tinsert xs

/-- Deduplicate a list built by a set comprehension. -/
def tdedup (xs : List Term) : List Term := xs.foldl tinsert []

/-- Printed-form equality on pairs of terms. -/
def pairBeq (p q : Term × Term) : Bool := Term.beq p.1 q.1 && Term.beq p.2 q.2

/-- Membership of a pair in a set of pairs. -/
def pairMem (p : Term × Term) (xs : List (Term × Term)) : Bool := xs.any (pairBeq p)

/-- Insert into a set of pairs. -/
def pinsert (xs : List (Term × Term)) (p : Term × Term) : List (Term × Term) :=
  if pairMem p xs then xs else xs ++ [p]

/-- Union of two sets of pairs (left operand of `|` first). -/
def punion (xs ys : List (Term × Term)) : List (Term × Term) := ys.foldl pinsert xs

/-- Deduplicate a list of pairs built by a set comprehension. -/
def pdedup (xs : List (Term × Term)) : List (Term × Term) := xs.foldl pinsert []

/-- Python `sum(generator, start)`: left fold of the smart sum. -/
def pySum (xs : List Term) (start : Term) : Term := xs.foldl Term.add start

namespace Term

/-- Method `ssplicings` of each class: the sequential splicings as a set
of pairs. -/
def ssplicings : Term → List (Term × Term)
  | Zero => []
  | One => [(One, One)]
  | Primitive s => pdedup [(Primitive s, One), (One, Primitive s)]
  | Choice l r => punion l.ssplicings r.ssplicings
  | Sequential l r =>
      punion (pdedup (r.ssplicings.map fun gh => (l.pow gh.1, gh.2)))
             (pdedup (l.ssplicings.map fun gh => (gh.1, gh.2.pow r)))
  | Parallel l r =>
      pdedup (l.ssplicings.flatMap fun p1 =>
        r.ssplicings.map fun p2 => (p1.1.floordiv p2.1, p1.2.floordiv p2.2))
  | Star b =>
      punion (pdedup (b.ssplicings.map fun gh => ((Star b).pow gh.1, gh.2.pow (Star b))))
             [(One, One)]

/-- Method `ClosedTerm.psplicings`: the nontrivial parallel splicings
(the `nontrivial_psplicings` method of each class, inlined as the inner
match so that the recursion is structural) together with the two
trivial ones. -/
def psplicings (t : Term) : List (Term × Term) :=
  punion
    (match t with
     | Zero => []
     | One => []
     | Primitive _ => []
     | Choice l r => punion (psplicings l) (psplicings r)
     | Sequential l r =>
         punion ((psplicings l).filter fun _ => r.nullable)
                ((psplicings r).filter fun _ => l.nullable)
     | Parallel l r =>
         pdedup ((psplicings l).flatMap fun p1 =>
           (psplicings r).map fun p2 => (p1.1.floordiv p2.1, p1.2.floordiv p2.2))
     | Star b => psplicings b)
    (pdedup [(t, One), (One, t)])

/-- Whether `Zero` occurs anywhere in the term. -/
def containsZero : Term → Bool
  | Zero => true
  | One => false
  | Primitive _ => false
  | Choice l r => containsZero l || containsZero r
  | Sequential l r => containsZero l || containsZero r
  | Parallel l r => containsZero l || containsZero r
  | Star b => containsZero b

/-- Whether the top constructor is `Star` (used to state for which
operands the star-choice simplifications fire). -/
def isStar : Term → Bool
  | Star _ => true
  | _ => false

/-- Letters of primitives that do not collide with the reserved output
of the printer: not empty, and not the printed forms of `Zero`/`One`.
The source treats letters as opaque symbols; a letter equal to "0", "1"
or "" would alias distinct terms under printed-form equality. -/
def goodLetters : Term → Bool
  | Zero => true
  | One => true
  | Primitive s => !(s == "") && !(s == "0") && !(s == "1")
  | Choice l r => goodLetters l && goodLetters r
  | Sequential l r => goodLetters l && goodLetters r
  | Parallel l r => goodLetters l && goodLetters r
  | Star b => goodLetters b

end Term

/-- Terms built exclusively through the smart constructors
(`zero()`, `one()`, `primitive(letter)` and the four combinators). -/
inductive SmartBuilt : Term → Prop where
  | zero : SmartBuilt Term.Zero
  | one : SmartBuilt Term.One
  | prim (s : String) : SmartBuilt (Term.Primitive s)
  | add {a b : Term} : SmartBuilt a → SmartBuilt b → SmartBuilt (Term.add a b)
  | seq {a b : Term} : SmartBuilt a → SmartBuilt b → SmartBuilt (Term.pow a b)
  | par {a b : Term} : SmartBuilt a → SmartBuilt b → SmartBuilt (Term.floordiv a b)
  | star {a : Term} : SmartBuilt a → SmartBuilt (Term.star a)

/-- Pairwise distinctness with respect to printed-form equality: the
property a Python set of terms always has. -/
def StrNodup (xs : List Term) : Prop := xs.Pairwise (fun a b => Term.beq a b = false)

namespace Term

/-- The `while todo` loop of `Term.remainders`, abstracted over the
recursive call `f` on the two remaining arguments: pop a splicing, and
if its right component is new, merge the recursive remainder set. -/
def remLoop (f : Term → List Term → Option (List Term)) :
    List (Term × Term) → List Term → Option (List Term)
  | [], acc => some acc
  | gh :: todo, acc =>
      if tmem gh.2 acc then remLoop f todo acc
      else do
        let r ← f gh.2 acc
        remLoop f todo (tunion acc r)

/-- Method `Term.remainders` with explicit fuel.  The body initialises
the result to `{self} | seen` and drains the work list of sequential
splicings; the default argument `seen=set()` of the source is never
mutated, so it behaves as the empty set on outer calls. -/
def remaindersF : Nat → Term → List Term → Option (List Term)
  | 0, _, _ => none
  | n + 1, t, seen => remLoop (remaindersF n) t.ssplicings (tinsert seen t)

/-- Finite overapproximation of the set of terms the remainder
computation can ever reach from `t`: every right component of a
sequential splicing of a member is again a member. -/
def Rhat : Term → List Term
  | Zero => [Zero]
  | One => [One]
  | Primitive s => [Primitive s, One]
  | Choice l r => Choice l r :: (Rhat l ++ Rhat r)
  | Sequential l r => Sequential l r :: (Rhat r ++ (Rhat l).map (fun u => u.pow r))
  | Parallel l r =>
      Parallel l r :: (Rhat l ++ Rhat r ++
        ((Rhat l).flatMap fun u => (Rhat r).map fun v => u.floordiv v))
  | Star b => Star b :: One :: (Rhat b).map (fun u => u.pow (Star b))

/-- Fuel that provably suffices for `remaindersF` (see the remainder
theorems): one more than the size of the overapproximation. -/
def remBound (t : Term) : Nat := (Rhat t).length + 1

/-- Method `Term.remainders` called with the default `seen`: the fuel is
instantiated with the proven sufficient bound, so this equals the value
of the source whenever the source terminates. -/
def remainders (t : Term) : Option (List Term) := remaindersF (remBound t) t []

end Term

/-! The solver.  Python dictionaries keyed by terms (equality and hash
of the printed form) become association lists; a failed lookup — a
`KeyError` in the source — is `none`. -/

/-- Association list for the solver vectors and solutions. -/
abbrev Dict1 := List (Term × Term)

/-- Association list for the solver matrices. -/
abbrev Dict2 := List ((Term × Term) × Term)

/-- Dictionary lookup keyed on printed-form equality. -/
def dlookup1 (d : Dict1) (k : Term) : Option Term :=
  (d.find? fun kv => Term.beq kv.1 k).map (·.2)

/-- Matrix lookup keyed on printed-form equality of both symbols. -/
def dlookup2 (d : Dict2) (k1 k2 : Term) : Option Term :=
  (d.find? fun kv => Term.beq kv.1.1 k1 && Term.beq kv.1.2 k2).map (·.2)

/-- One entry of the reduced vector of `LinearSystem.solve`:
`vector[v] + matrix[v, elim] ** vector[elim]`. -/
def reducedVectorEntry (matrix : Dict2) (vector : Dict1) (e v : Term) : Option Term := do
  let bv ← dlookup1 vector v
  let ave ← dlookup2 matrix v e
  let be ← dlookup1 vector e
  pure (Term.add bv (Term.pow ave be))

/-- The reduced vector of `LinearSystem.solve`. -/
def reducedVector (matrix : Dict2) (vector : Dict1) (e : Term) (reuse : List Term) :
    Option Dict1 :=
  reuse.mapM fun v => do
    let x ← reducedVectorEntry matrix vector e v
    pure (v, x)

/-- One entry of the reduced matrix of `LinearSystem.solve`:
`matrix[v1, elim] ** matrix[elim, elim].star() ** matrix[elim, v2]
+ matrix[v1, v2]` (Python `**` associates to the right). -/
def reducedMatrixEntry (matrix : Dict2) (e v1 v2 : Term) : Option Term := do
  let a1 ← dlookup2 matrix v1 e
  let aee ← dlookup2 matrix e e
  let a2 ← dlookup2 matrix e v2
  let a12 ← dlookup2 matrix v1 v2
  pure (Term.add (Term.pow a1 (Term.pow (Term.star aee) a2)) a12)

/-- The reduced matrix of `LinearSystem.solve`. -/
def reducedMatrix (matrix : Dict2) (e : Term) (reuse : List Term) : Option Dict2 := do
  let rows ← reuse.mapM fun v1 =>
    reuse.mapM fun v2 => do
      let x ← reducedMatrixEntry matrix e v1 v2
      pure ((v1, v2), x)
  pure rows.flatten

/-- The back-substitution step of `LinearSystem.solve`:
`matrix[elim, elim].star() ** sum((matrix[elim, v] ** solution[v] for v in reuse),
vector[elim])`. -/
def backSubstitute (matrix : Dict2) (sol : Dict1) (e : Term) (reuse : List Term)
    (be : Term) : Option Term := do
  let s ← reuse.foldlM
    (fun acc v => do
      let aev ← dlookup2 matrix e v
      let xv ← dlookup1 sol v
      pure (Term.add acc (Term.pow aev xv)))
    be
  let aee ← dlookup2 matrix e e
  pure (Term.pow (Term.star aee) s)

/-- Body of `LinearSystem.solve` with fuel bounding the recursion depth
(the recursion of the source is on a strictly smaller symbol set, so the
number of symbols is a sufficient bound; see `solveL`). -/
def solveAux : Nat → List Term → Dict2 → Dict1 → Option Dict1
  | 0, _, _, _ => none
  | _ + 1, [], _, _ => none
  | n + 1, e :: rest, matrix, vector =>
      let reuse := rest.filter fun v => !(Term.beq v e)
      if reuse.isEmpty then do
        let aee ← dlookup2 matrix e e
        let be ← dlookup1 vector e
        pure [(e, Term.pow (Term.star aee) be)]
      else do
        let subvector ← reducedVector matrix vector e reuse
        let submatrix ← reducedMatrix matrix e reuse
        let sol ← solveAux n reuse submatrix subvector
        let be ← dlookup1 vector e
        let xe ← backSubstitute matrix sol e reuse be
        pure (sol ++ [(e, xe)])

/-- Method `LinearSystem.solve`: variable elimination.  The pivot is the
first symbol of the iteration order; an empty symbol set raises
(`next` on an empty iterator), modelled by `none`. -/
def solveL (symbols : List Term) (matrix : Dict2) (vector : Dict1) : Option Dict1 :=
  solveAux symbols.length symbols matrix vector

/-- Dictionary lookup with a default, for stating solver equations. -/
def dget1 (d : Dict1) (k : Term) : Term := (dlookup1 d k).getD Term.Zero

/-- Matrix lookup with a default, for stating solver equations. -/
def dget2 (d : Dict2) (k1 k2 : Term) : Term := (dlookup2 d k1 k2).getD Term.Zero

namespace Term

/-- Attribute access `symbol.left`; solver symbols are always `Parallel`
nodes, so the fallback branch is never exercised. -/
def parLeft : Term → Term
  | Parallel l _ => l
  | t => t

/-- Attribute access `symbol.right`. -/
def parRight : Term → Term
  | Parallel _ r => r
  | t => t

/-- The pairs kept by the width guard of `Parallel.preclosure`: both
components strictly narrower than the whole term.  Width evaluation can
fail (the `Zero.is_trivial` bug), hence the `Option`. -/
def widthKeep (w : Nat) : List (Term × Term) → Option (List (Term × Term))
  | [] => some []
  | gh :: rest => do
      let wg ← gh.1.widthQ
      if wg < w then do
        let wh ← gh.2.widthQ
        let tl ← widthKeep w rest
        pure (if wh < w then gh :: tl else tl)
      else widthKeep w rest

/-- The summands `g.closure() // h.closure()` of `Parallel.preclosure`,
for an arbitrary closure function `c`. -/
def closurePairs (c : Term → Option Term) : List (Term × Term) → Option (List Term)
  | [] => some []
  | gh :: rest => do
      let cg ← c gh.1
      let ch ← c gh.2
      let tl ← closurePairs c rest
      pure (Term.floordiv cg ch :: tl)

/-- Method `Parallel.preclosure` on a parallel composition with sides
`l`, `r`, parameterised by the closure function `c` used on the spliced
components. -/
def preclosureW (c : Term → Option Term) (l r : Term) : Option Term := do
  let w ← (Parallel l r).widthQ
  let kept ← widthKeep w (Parallel l r).psplicings
  let summands ← closurePairs c kept
  pure (pySum summands (l.floordiv r))

/-- One summand filter of a matrix entry: keep the splicing combinations
whose right components form the target symbol, and take the preclosure
of the left components. -/
def matrixSummands (c : Term → Option Term) (s2 : Term) :
    List ((Term × Term) × (Term × Term)) → Option (List Term)
  | [] => some []
  | pp :: rest =>
      if Term.beq (Parallel pp.1.2 pp.2.2) s2 then do
        let x ← preclosureW c pp.1.1 pp.2.1
        let tl ← matrixSummands c s2 rest
        pure (x :: tl)
      else matrixSummands c s2 rest

/-- One entry of the matrix of `Parallel.linear_system`:
`sum((Parallel(g1, g2).preclosure() for (g1, h1) in s1.left.ssplicings()
for (g2, h2) in s1.right.ssplicings() if Parallel(h1, h2) == s2), Zero())`. -/
def matrixEntryW (c : Term → Option Term) (s1 s2 : Term) : Option Term := do
  let combos := (parLeft s1).ssplicings.flatMap fun p1 =>
    (parRight s1).ssplicings.map fun p2 => (p1, p2)
  let summands ← matrixSummands c s2 combos
  pure (pySum summands Zero)

/-- One row of the matrix of `Parallel.linear_system`. -/
def matrixRowW (c : Term → Option Term) (s1 : Term) : List Term → Option Dict2
  | [] => some []
  | s2 :: rest => do
      let x ← matrixEntryW c s1 s2
      let tl ← matrixRowW c s1 rest
      pure (((s1, s2), x) :: tl)

/-- The matrix of `Parallel.linear_system` as a dictionary. -/
def linearMatrixW (c : Term → Option Term) (symbols : List Term) :
    List Term → Option Dict2
  | [] => some []
  | s1 :: rest => do
      let row ← matrixRowW c s1 symbols
      let tl ← linearMatrixW c symbols rest
      pure (row ++ tl)

/-- The vector of `Parallel.linear_system`:
`{symbol: symbol.left // symbol.right for symbol in symbols}`. -/
def linearVector (symbols : List Term) : Dict1 :=
  symbols.map fun s => (s, (parLeft s).floordiv (parRight s))

/-- Methods `Parallel.linear_system` and `LinearSystem.solve` combined:
build the symbol set from the remainders of the two sides, the matrix
and the vector, and solve. -/
def linearSolutionW (c : Term → Option Term) (l r : Term) : Option Dict1 := do
  let rl ← l.remainders
  let rr ← r.remainders
  let symbols := tdedup (rl.flatMap fun lp => rr.map fun rp => Parallel lp rp)
  let m ← linearMatrixW c symbols symbols
  solveL symbols m (linearVector symbols)

/-- Method `closure` of each class, with fuel for the recursion through
the linear system (whose termination the source argues by the width
measure).  A run that returns `some` computes exactly what the source
computes. -/
def closureF : Nat → Term → Option Term
  | 0, _ => none
  | n + 1, t =>
      match t with
      | Zero => some Zero
      | One => some One
      | Primitive s => some (Primitive s)
      | Choice l r => do pure (Term.add (← closureF n l) (← closureF n r))
      | Sequential l r => do pure (Term.pow (← closureF n l) (← closureF n r))
      | Star b => do pure (Term.star (← closureF n b))
      | Parallel l r => do
          let sol ← linearSolutionW (closureF n) l r
          dlookup1 sol (Parallel l r)

end Term

/-- Number of printed-form classes of `univ` that are represented in
`acc`; the progress measure of the remainder computation. -/
def ccount (univ acc : List Term) : Nat :=
  ((tdedup univ).filter fun u => tmem u acc).length

/-- The value of `closure` on `t`: what `closureF` returns given enough
fuel (the source computes this without fuel whenever it terminates). -/
def Closure (t u : Term) : Prop := ∃ n, Term.closureF n t = some u

/-- Pointwise refinement of partial closure functions, used to state
that adding fuel preserves every already-defined result. -/
def Cle (c d : Term → Option Term) : Prop := ∀ t u, c t = some u → d t = some u

/-- Symbol list of a small concrete linear system, for evaluating the
solver on an actual input. -/
def exSymbols : List Term := [Term.Primitive "x", Term.Primitive "y"]

/-- Matrix of the small concrete linear system. -/
def exMatrix : Dict2 :=
  [((Term.Primitive "x", Term.Primitive "x"), Term.Primitive "a"),
   ((Term.Primitive "x", Term.Primitive "y"), Term.Primitive "b"),
   ((Term.Primitive "y", Term.Primitive "x"), Term.Primitive "c"),
   ((Term.Primitive "y", Term.Primitive "y"), Term.Primitive "d")]

/-- Vector of the small concrete linear system. -/
def exVector : Dict1 :=
  [(Term.Primitive "x", Term.Primitive "p"),
   (Term.Primitive "y", Term.Primitive "q")]

/-! Basic properties of printed-form equality and of the set model. -/

namespace Term

theorem beq_refl (t : Term) : beq t t = true := by simp [beq]

theorem beq_symm {a b : Term} (h : beq a b = true) : beq b a = true := by
  simp [beq] at h ⊢; exact h.symm

theorem beq_trans {a b c : Term} (h1 : beq a b = true) (h2 : beq b c = true) :
    beq a c = true := by
  simp [beq] at h1 h2 ⊢; exact h1.trans h2

theorem beq_eq_true_iff {a b : Term} : beq a b = true ↔ a.str = b.str := by
  simp [beq]

end Term

theorem pairBeq_refl (p : Term × Term) : pairBeq p p = true := by
  simp [pairBeq, Term.beq_refl]

theorem pairBeq_symm {p q : Term × Term} (h : pairBeq p q = true) :
    pairBeq q p = true := by
  simp only [pairBeq, Bool.and_eq_true] at h ⊢
  exact ⟨Term.beq_symm h.1, Term.beq_symm h.2⟩

theorem pairBeq_trans {p q r : Term × Term} (h1 : pairBeq p q = true)
    (h2 : pairBeq q r = true) : pairBeq p r = true := by
  simp only [pairBeq, Bool.and_eq_true] at h1 h2 ⊢
  exact ⟨Term.beq_trans h1.1 h2.1, Term.beq_trans h1.2 h2.2⟩

theorem tmem_of_mem {x : Term} {xs : List Term} (h : x ∈ xs) : tmem x xs = true := by
  unfold tmem
  exact List.any_eq_true.mpr ⟨x, h, Term.beq_refl x⟩

theorem tmem_of_beq {x y : Term} {xs : List Term} (h : Term.beq x y = true)
    (h2 : tmem y xs = true) : tmem x xs = true := by
  unfold tmem at h2 ⊢
  obtain ⟨z, hz, hb⟩ := List.any_eq_true.mp h2
  exact List.any_eq_true.mpr ⟨z, hz, Term.beq_trans h hb⟩

theorem tmem_exists {x : Term} {xs : List Term} (h : tmem x xs = true) :
    ∃ z ∈ xs, Term.beq x z = true := List.any_eq_true.mp h

theorem tmem_nil (x : Term) : tmem x [] = false := rfl

theorem tmem_cons {x y : Term} {ys : List Term} :
    tmem x (y :: ys) = (Term.beq x y || tmem x ys) := by
  simp [tmem, List.any_cons]

theorem tmem_append {x : Term} {xs ys : List Term} :
    tmem x (xs ++ ys) = (tmem x xs || tmem x ys) := by
  simp [tmem]

theorem tmem_tinsert {x y : Term} {xs : List Term} :
    tmem x (tinsert xs y) = true ↔ tmem x xs = true ∨ Term.beq x y = true := by
  unfold tinsert
  split
  · case isTrue h =>
      constructor
      · exact fun hx => Or.inl hx
      · rintro (hx | hb)
        · exact hx
        · exact tmem_of_beq hb h
  · case isFalse h =>
      rw [tmem_append, tmem_cons, tmem_nil]
      simp only [Bool.or_false, Bool.or_eq_true]

theorem tmem_tinsert_self (xs : List Term) (y : Term) : tmem y (tinsert xs y) = true :=
  tmem_tinsert.mpr (Or.inr (Term.beq_refl y))

theorem mem_tinsert_elim {z y : Term} {xs : List Term} (h : z ∈ tinsert xs y) :
    z ∈ xs ∨ z = y := by
  unfold tinsert at h
  split at h
  · exact Or.inl h
  · rcases List.mem_append.mp h with h1 | h1
    · exact Or.inl h1
    · simp at h1; exact Or.inr h1

theorem mem_tinsert_of_mem {z y : Term} {xs : List Term} (h : z ∈ xs) :
    z ∈ tinsert xs y := by
  unfold tinsert
  split
  · exact h
  · exact List.mem_append.mpr (Or.inl h)

theorem tunion_nil (xs : List Term) : tunion xs [] = xs := rfl

theorem tunion_cons (xs : List Term) (y : Term) (ys : List Term) :
    tunion xs (y :: ys) = tunion (tinsert xs y) ys := rfl

theorem tmem_tunion {x : Term} {xs ys : List Term} :
    tmem x (tunion xs ys) = true ↔ tmem x xs = true ∨ tmem x ys = true := by
  induction ys generalizing xs with
  | nil => simp [tunion_nil, tmem]
  | cons y ys ih =>
      rw [tunion_cons, ih, tmem_tinsert, tmem_cons]
      simp only [Bool.or_eq_true]
      tauto

theorem mem_tunion_elim {z : Term} {xs ys : List Term} (h : z ∈ tunion xs ys) :
    z ∈ xs ∨ z ∈ ys := by
  induction ys generalizing xs with
  | nil => exact Or.inl h
  | cons y ys ih =>
      rw [tunion_cons] at h
      rcases ih h with h1 | h1
      · rcases mem_tinsert_elim h1 with h2 | h2
        · exact Or.inl h2
        · subst h2; exact Or.inr (List.mem_cons_self _ _)
      · exact Or.inr (List.mem_cons_of_mem _ h1)

theorem mem_tunion_of_mem_left {z : Term} {xs ys : List Term} (h : z ∈ xs) :
    z ∈ tunion xs ys := by
  induction ys generalizing xs with
  | nil => exact h
  | cons y ys ih => exact ih (mem_tinsert_of_mem h)

theorem tdedup_eq_tunion (xs : List Term) : tdedup xs = tunion [] xs := rfl

theorem tmem_tdedup {x : Term} {xs : List Term} :
    tmem x (tdedup xs) = true ↔ tmem x xs = true := by
  rw [tdedup_eq_tunion, tmem_tunion]
  simp [tmem_nil]

theorem mem_tdedup_elim {z : Term} {xs : List Term} (h : z ∈ tdedup xs) : z ∈ xs := by
  rw [tdedup_eq_tunion] at h
  rcases mem_tunion_elim h with h1 | h1
  · simp at h1
  · exact h1

theorem pairMem_of_mem {p : Term × Term} {xs : List (Term × Term)} (h : p ∈ xs) :
    pairMem p xs = true := by
  unfold pairMem
  exact List.any_eq_true.mpr ⟨p, h, pairBeq_refl p⟩

theorem pairMem_of_pairBeq {p q : Term × Term} {xs : List (Term × Term)}
    (h : pairBeq p q = true) (h2 : pairMem q xs = true) : pairMem p xs = true := by
  unfold pairMem at h2 ⊢
  obtain ⟨z, hz, hb⟩ := List.any_eq_true.mp h2
  exact List.any_eq_true.mpr ⟨z, hz, pairBeq_trans h hb⟩

theorem pairMem_exists {p : Term × Term} {xs : List (Term × Term)}
    (h : pairMem p xs = true) : ∃ z ∈ xs, pairBeq p z = true := List.any_eq_true.mp h

theorem pairMem_nil (p : Term × Term) : pairMem p [] = false := rfl

theorem pairMem_cons {p q : Term × Term} {xs : List (Term × Term)} :
    pairMem p (q :: xs) = (pairBeq p q || pairMem p xs) := by
  simp [pairMem, List.any_cons]

theorem pairMem_pinsert {p q : Term × Term} {xs : List (Term × Term)} :
    pairMem p (pinsert xs q) = true ↔ pairMem p xs = true ∨ pairBeq p q = true := by
  unfold pinsert
  split
  · case isTrue h =>
      constructor
      · exact fun hx => Or.inl hx
      · rintro (hx | hb)
        · exact hx
        · exact pairMem_of_pairBeq hb h
  · case isFalse h =>
      unfold pairMem
      rw [List.any_append]
      simp [List.any_cons]

theorem pinsert_sub {z q : Term × Term} {xs : List (Term × Term)} (h : z ∈ pinsert xs q) :
    z ∈ xs ∨ z = q := by
  unfold pinsert at h
  split at h
  · exact Or.inl h
  · rcases List.mem_append.mp h with h1 | h1
    · exact Or.inl h1
    · simp at h1; exact Or.inr h1

theorem punion_nil (xs : List (Term × Term)) : punion xs [] = xs := rfl

theorem punion_cons (xs : List (Term × Term)) (y : Term × Term) (ys : List (Term × Term)) :
    punion xs (y :: ys) = punion (pinsert xs y) ys := rfl

theorem pairMem_punion {p : Term × Term} {xs ys : List (Term × Term)} :
    pairMem p (punion xs ys) = true ↔ pairMem p xs = true ∨ pairMem p ys = true := by
  induction ys generalizing xs with
  | nil => simp [punion_nil, pairMem]
  | cons y ys ih =>
      rw [punion_cons, ih, pairMem_pinsert, pairMem_cons]
      simp only [Bool.or_eq_true]
      tauto

theorem mem_punion_elim {z : Term × Term} {xs ys : List (Term × Term)}
    (h : z ∈ punion xs ys) : z ∈ xs ∨ z ∈ ys := by
  induction ys generalizing xs with
  | nil => exact Or.inl h
  | cons y ys ih =>
      rw [punion_cons] at h
      rcases ih h with h1 | h1
      · rcases pinsert_sub h1 with h2 | h2
        · exact Or.inl h2
        · subst h2; exact Or.inr (List.mem_cons_self _ _)
      · exact Or.inr (List.mem_cons_of_mem _ h1)

theorem pdedup_eq_punion (xs : List (Term × Term)) : pdedup xs = punion [] xs := rfl

theorem pairMem_pdedup {p : Term × Term} {xs : List (Term × Term)} :
    pairMem p (pdedup xs) = true ↔ pairMem p xs = true := by
  rw [pdedup_eq_punion, pairMem_punion]
  simp [pairMem_nil]

theorem mem_pdedup_elim {z : Term × Term} {xs : List (Term × Term)}
    (h : z ∈ pdedup xs) : z ∈ xs := by
  rw [pdedup_eq_punion] at h
  rcases mem_punion_elim h with h1 | h1
  · simp at h1
  · exact h1

namespace Term

theorem mem_self (t : Term) : mem t t = true := by
  induction t with
  | Zero => simp [mem, beq_refl]
  | One => simp [mem, beq_refl]
  | Primitive s => simp [mem, beq_refl]
  | Choice l r ihl ihr => simp [mem, beq_refl]
  | Sequential l r ihl ihr => simp [mem, beq_refl]
  | Parallel l r ihl ihr => simp [mem, ihl, ihr]
  | Star b ih => simp [mem, beq_refl]

end Term

namespace Term

theorem pow_one (t : Term) : pow t One = t := rfl

theorem one_pow (t : Term) : pow One t = t := by cases t <;> rfl

theorem pow_zero_right (t : Term) : pow t Zero = Zero := by cases t <;> rfl

theorem zero_pow (t : Term) : pow Zero t = Zero := by cases t <;> rfl

theorem isOne_false {t : Term} (h : t ≠ One) : t.isOne = false := by
  cases t <;> first | rfl | exact absurd rfl h

theorem isZero_false {t : Term} (h : t ≠ Zero) : t.isZero = false := by
  cases t <;> first | rfl | exact absurd rfl h

theorem pow_ne {a b : Term} (h1 : a.isOne = false) (h2 : b.isOne = false)
    (h3 : a.isZero = false) (h4 : b.isZero = false) :
    pow a b = Sequential a b := by
  simp [pow, h1, h2, h3, h4]

theorem bracket_le {s : String} {c p : Nat} (h : c ≤ p) : bracket s c p = s :=
  if_pos h

theorem isOne_sequential (l r : Term) : (Sequential l r).isOne = false := rfl

theorem isZero_sequential (l r : Term) : (Sequential l r).isZero = false := rfl

theorem str_sequential (l r : Term) :
    (Sequential l r).str = bracket (str l) l.prec 5 ++ bracket (str r) r.prec 5 := rfl

end Term

/-- C3: the claim states that `width(t)` and `is_trivial(t)` terminate
without raising on every closed term built via the smart constructors,
including `Zero` itself, with `is_trivial(Zero) = true` and
`width(Zero) = 0`.  The source declares `Zero.is_trivial` without the
`self` parameter, so both calls raise a `TypeError` on the term `Zero`;
the model therefore returns `none` at this input, against the claimed
values `true` and `0`. -/
theorem zero_width_and_trivial_raise :
    Term.isTrivialQ Term.Zero = none ∧ Term.widthQ Term.Zero = none :=
  ⟨rfl, rfl⟩

/-- C10: the smart sequential constructor is associative up to the
printed-form equality of the system: a `Sequential` child of a
`Sequential` parent prints unbracketed, so both groupings flatten to the
same string. -/
theorem pow_assoc_printed (a b c : Term) :
    Term.str (Term.pow (Term.pow a b) c) = Term.str (Term.pow a (Term.pow b c)) := by
  by_cases hb1 : b = Term.One
  · subst hb1; rw [Term.pow_one, Term.one_pow]
  by_cases ha1 : a = Term.One
  · subst ha1; rw [Term.one_pow, Term.one_pow]
  by_cases hc1 : c = Term.One
  · subst hc1; rw [Term.pow_one, Term.pow_one]
  by_cases hb0 : b = Term.Zero
  · subst hb0; simp [Term.pow_zero_right, Term.zero_pow]
  by_cases ha0 : a = Term.Zero
  · subst ha0; simp [Term.zero_pow]
  by_cases hc0 : c = Term.Zero
  · subst hc0; simp [Term.pow_zero_right]
  have hab : Term.pow a b = Term.Sequential a b :=
    Term.pow_ne (Term.isOne_false ha1) (Term.isOne_false hb1)
      (Term.isZero_false ha0) (Term.isZero_false hb0)
  have hbc : Term.pow b c = Term.Sequential b c :=
    Term.pow_ne (Term.isOne_false hb1) (Term.isOne_false hc1)
      (Term.isZero_false hb0) (Term.isZero_false hc0)
  rw [hab, hbc]
  rw [Term.pow_ne (Term.isOne_sequential a b) (Term.isOne_false hc1)
    (Term.isZero_sequential a b) (Term.isZero_false hc0)]
  rw [Term.pow_ne (Term.isOne_false ha1) (Term.isOne_sequential b c)
    (Term.isZero_false ha0) (Term.isZero_sequential b c)]
  rw [Term.str_sequential, Term.str_sequential, Term.str_sequential, Term.str_sequential]
  simp only [Term.prec]
  rw [Term.bracket_le (le_refl 5), Term.bracket_le (le_refl 5)]
  rw [String.append_assoc]

namespace Term

theorem star_ne {a : Term} (h1 : a ≠ One) (h2 : a ≠ Zero) (h3 : a.isStar = false) :
    star a = Star a := by
  cases a <;> first
    | rfl
    | exact absurd rfl h1
    | exact absurd rfl h2
    | simp [isStar] at h3

theorem starSimp_left_self (a : Term) : starSimp (Star a) a = some (Star a) := by
  simp [starSimp, beq_refl]

theorem starSimp_right_self {a : Term} (h : a.isStar = false) :
    starSimp a (Star a) = some (Star a) := by
  cases a with
  | Star b => simp [isStar] at h
  | Zero => simp [starSimp, beq_refl]
  | One => simp [starSimp, beq_refl]
  | Primitive s => simp [starSimp, beq_refl]
  | Choice l r => simp [starSimp, beq_refl]
  | Sequential l r => simp [starSimp, beq_refl]
  | Parallel l r => simp [starSimp, beq_refl]

theorem add_one_seq (l r : Term) :
    add One (Sequential l r) = (starSimp l r).getD (addDefault One (Sequential l r)) := rfl

theorem add_seq_one (l r : Term) :
    add (Sequential l r) One = (starSimp l r).getD (addDefault (Sequential l r) One) := rfl

end Term

/-- C6: the claim asserts the four printed-form identities
`1 + a·a* = a*`, `1 + a*·a = a*`, `a·a* + 1 = a*` and `a*·a + 1 = a*`
for every closed `a`.  They hold whenever `a` is not itself a `Star`
term: star of such an `a` is the literal `Star a`, the smart sequential
builds `Sequential`, and the star-choice simplification of `One.__add__`
or `Sequential.__add__` fires.  (For `a = Star b` the simplification
does not fire, see the counterexample.) -/
theorem star_choice_identities (a : Term) (h : a.isStar = false) :
    Term.str (Term.add Term.One (Term.pow a (Term.star a))) = Term.str (Term.star a) ∧
    Term.str (Term.add Term.One (Term.pow (Term.star a) a)) = Term.str (Term.star a) ∧
    Term.str (Term.add (Term.pow a (Term.star a)) Term.One) = Term.str (Term.star a) ∧
    Term.str (Term.add (Term.pow (Term.star a) a) Term.One) = Term.str (Term.star a) := by
  by_cases h1 : a = Term.One
  · subst h1; refine ⟨rfl, rfl, rfl, rfl⟩
  by_cases h0 : a = Term.Zero
  · subst h0; refine ⟨rfl, rfl, rfl, rfl⟩
  have hstar : Term.star a = Term.Star a := Term.star_ne h1 h0 h
  have hpow1 : Term.pow a (Term.Star a) = Term.Sequential a (Term.Star a) :=
    Term.pow_ne (Term.isOne_false h1) rfl (Term.isZero_false h0) rfl
  have hpow2 : Term.pow (Term.Star a) a = Term.Sequential (Term.Star a) a :=
    Term.pow_ne rfl (Term.isOne_false h1) rfl (Term.isZero_false h0)
  rw [hstar, hpow1, hpow2]
  rw [Term.add_one_seq, Term.add_one_seq, Term.add_seq_one, Term.add_seq_one]
  rw [Term.starSimp_right_self h, Term.starSimp_left_self]
  exact ⟨rfl, rfl, rfl, rfl⟩

/-- Witness for C6 at the primitive `p`: the hypothesis holds and the
four identities evaluate as claimed. -/
theorem star_choice_identities_witness :
    (Term.Primitive "p").isStar = false ∧
    (Term.str (Term.add Term.One (Term.pow (Term.Primitive "p") (Term.star (Term.Primitive "p")))) =
        Term.str (Term.star (Term.Primitive "p")) ∧
      Term.str (Term.add Term.One (Term.pow (Term.star (Term.Primitive "p")) (Term.Primitive "p"))) =
        Term.str (Term.star (Term.Primitive "p")) ∧
      Term.str (Term.add (Term.pow (Term.Primitive "p") (Term.star (Term.Primitive "p"))) Term.One) =
        Term.str (Term.star (Term.Primitive "p")) ∧
      Term.str (Term.add (Term.pow (Term.star (Term.Primitive "p")) (Term.Primitive "p")) Term.One) =
        Term.str (Term.star (Term.Primitive "p"))) :=
  ⟨rfl, star_choice_identities (Term.Primitive "p") rfl⟩

/-- Counterexample to C6 as stated: for `a = Star b` (a closed term
built by the smart constructors) the sum `1 + a·a*` is the choice
`1 + b*b*`, whose printed form differs from that of `a* = b*`. -/
theorem star_choice_identities_counterexample :
    Term.str (Term.add Term.One
        (Term.pow (Term.Star (Term.Primitive "b"))
          (Term.star (Term.Star (Term.Primitive "b"))))) ≠
      Term.str (Term.star (Term.Star (Term.Primitive "b"))) := by
  decide

namespace Term

theorem starSimp_result {l r t : Term} (h : starSimp l r = some t) : t = l ∨ t = r := by
  unfold starSimp at h
  split at h
  · split at h
    · cases h; exact Or.inl rfl
    · split at h
      · split at h
        · cases h; exact Or.inr rfl
        · cases h
      · cases h
  · split at h
    · split at h
      · cases h; exact Or.inr rfl
      · cases h
    · cases h

theorem addDefault_result (a b : Term) :
    addDefault a b = a ∨ addDefault a b = b ∨
      (addDefault a b = Choice a b ∧ a.isZero = false ∧ b.isZero = false) := by
  unfold addDefault
  split
  · exact Or.inl rfl
  · split
    · exact Or.inr (Or.inl rfl)
    · split
      · exact Or.inl rfl
      · split
        · exact Or.inr (Or.inl rfl)
        · rename_i h1 h2 _ _
          exact Or.inr (Or.inr ⟨rfl, by simpa using h2, by simpa using h1⟩)

theorem add_result (a b : Term) :
    add a b = a ∨ add a b = b ∨
      (add a b = Choice a b ∧ a.isZero = false ∧ b.isZero = false) ∨
      (∃ l r, b = Sequential l r ∧ (add a b = l ∨ add a b = r)) ∨
      (∃ l r, a = Sequential l r ∧ (add a b = l ∨ add a b = r)) := by
  unfold add
  split
  · rename_i l r
    cases hs : starSimp l r with
    | none =>
        simp only [hs, Option.getD_none]
        rcases addDefault_result One (Sequential l r) with h1 | h1 | h1
        · exact Or.inl h1
        · exact Or.inr (Or.inl h1)
        · exact Or.inr (Or.inr (Or.inl h1))
    | some u =>
        simp only [hs, Option.getD_some]
        rcases starSimp_result hs with h1 | h1
        · exact Or.inr (Or.inr (Or.inr (Or.inl ⟨l, r, rfl, Or.inl h1⟩)))
        · exact Or.inr (Or.inr (Or.inr (Or.inl ⟨l, r, rfl, Or.inr h1⟩)))
  · rename_i l r
    cases hs : starSimp l r with
    | none =>
        simp only [hs, Option.getD_none]
        rcases addDefault_result (Sequential l r) One with h1 | h1 | h1
        · exact Or.inl h1
        · exact Or.inr (Or.inl h1)
        · exact Or.inr (Or.inr (Or.inl h1))
    | some u =>
        simp only [hs, Option.getD_some]
        rcases starSimp_result hs with h1 | h1
        · exact Or.inr (Or.inr (Or.inr (Or.inr ⟨l, r, rfl, Or.inl h1⟩)))
        · exact Or.inr (Or.inr (Or.inr (Or.inr ⟨l, r, rfl, Or.inr h1⟩)))
  · rcases addDefault_result a b with h1 | h1 | h1
    · exact Or.inl h1
    · exact Or.inr (Or.inl h1)
    · exact Or.inr (Or.inr (Or.inl h1))

theorem pow_result (a b : Term) :
    pow a b = a ∨ pow a b = b ∨ pow a b = Zero ∨
      (pow a b = Sequential a b ∧ a.isZero = false ∧ b.isZero = false) := by
  unfold pow
  split
  · exact Or.inl rfl
  · split
    · exact Or.inr (Or.inl rfl)
    · split
      · exact Or.inr (Or.inr (Or.inl rfl))
      · split
        · exact Or.inr (Or.inr (Or.inl rfl))
        · rename_i _ _ h3 h4
          exact Or.inr (Or.inr (Or.inr ⟨rfl, by simpa using h4, by simpa using h3⟩))

theorem floordiv_result (a b : Term) :
    floordiv a b = a ∨ floordiv a b = b ∨ floordiv a b = Zero ∨
      (floordiv a b = Parallel a b ∧ a.isZero = false ∧ b.isZero = false) := by
  unfold floordiv
  split
  · exact Or.inl rfl
  · split
    · exact Or.inr (Or.inl rfl)
    · split
      · exact Or.inr (Or.inr (Or.inl rfl))
      · split
        · exact Or.inr (Or.inr (Or.inl rfl))
        · rename_i _ _ h3 h4
          exact Or.inr (Or.inr (Or.inr ⟨rfl, by simpa using h4, by simpa using h3⟩))

theorem star_result (a : Term) :
    star a = One ∨ star a = a ∨ (star a = Star a ∧ a.isZero = false) := by
  cases a with
  | Zero => exact Or.inl rfl
  | One => exact Or.inl rfl
  | Star b => exact Or.inr (Or.inl rfl)
  | Primitive s => exact Or.inr (Or.inr ⟨rfl, rfl⟩)
  | Choice l r => exact Or.inr (Or.inr ⟨rfl, rfl⟩)
  | Sequential l r => exact Or.inr (Or.inr ⟨rfl, rfl⟩)
  | Parallel l r => exact Or.inr (Or.inr ⟨rfl, rfl⟩)

end Term

theorem smartBuilt_noZero {t : Term} (h : SmartBuilt t) :
    t = Term.Zero ∨ Term.containsZero t = false := by
  induction h with
  | zero => exact Or.inl rfl
  | one => exact Or.inr rfl
  | prim s => exact Or.inr rfl
  | @add a b ha hb iha ihb =>
      have hna : a.isZero = false → Term.containsZero a = false := by
        intro h0
        rcases iha with rfl | hh
        · simp [Term.isZero] at h0
        · exact hh
      have hnb : b.isZero = false → Term.containsZero b = false := by
        intro h0
        rcases ihb with rfl | hh
        · simp [Term.isZero] at h0
        · exact hh
      rcases Term.add_result a b with h1 | h1 | ⟨h1, ha0, hb0⟩ | ⟨l, r, rfl, h1⟩ | ⟨l, r, rfl, h1⟩
      · rw [h1]; exact iha
      · rw [h1]; exact ihb
      · rw [h1]; right
        simp [Term.containsZero, hna ha0, hnb hb0]
      · have hb2 : Term.containsZero (Term.Sequential l r) = false := by
          rcases ihb with h2 | h2
          · exact absurd h2 (by simp)
          · exact h2
        simp only [Term.containsZero, Bool.or_eq_false_iff] at hb2
        right
        rcases h1 with h1 | h1 <;> rw [h1]
        · exact hb2.1
        · exact hb2.2
      · have ha2 : Term.containsZero (Term.Sequential l r) = false := by
          rcases iha with h2 | h2
          · exact absurd h2 (by simp)
          · exact h2
        simp only [Term.containsZero, Bool.or_eq_false_iff] at ha2
        right
        rcases h1 with h1 | h1 <;> rw [h1]
        · exact ha2.1
        · exact ha2.2
  | @seq a b ha hb iha ihb =>
      rcases Term.pow_result a b with h1 | h1 | h1 | ⟨h1, ha0, hb0⟩
      · rw [h1]; exact iha
      · rw [h1]; exact ihb
      · rw [h1]; exact Or.inl rfl
      · rw [h1]; right
        have hca : Term.containsZero a = false := by
          rcases iha with rfl | hh
          · simp [Term.isZero] at ha0
          · exact hh
        have hcb : Term.containsZero b = false := by
          rcases ihb with rfl | hh
          · simp [Term.isZero] at hb0
          · exact hh
        simp [Term.containsZero, hca, hcb]
  | @par a b ha hb iha ihb =>
      rcases Term.floordiv_result a b with h1 | h1 | h1 | ⟨h1, ha0, hb0⟩
      · rw [h1]; exact iha
      · rw [h1]; exact ihb
      · rw [h1]; exact Or.inl rfl
      · rw [h1]; right
        have hca : Term.containsZero a = false := by
          rcases iha with rfl | hh
          · simp [Term.isZero] at ha0
          · exact hh
        have hcb : Term.containsZero b = false := by
          rcases ihb with rfl | hh
          · simp [Term.isZero] at hb0
          · exact hh
        simp [Term.containsZero, hca, hcb]
  | @star a ha iha =>
      rcases Term.star_result a with h1 | h1 | ⟨h1, ha0⟩
      · rw [h1]; exact Or.inr rfl
      · rw [h1]; exact iha
      · rw [h1]; right
        have hca : Term.containsZero a = false := by
          rcases iha with rfl | hh
          · simp [Term.isZero] at ha0
          · exact hh
        simpa [Term.containsZero] using hca

/-- C9: a term built exclusively through the smart constructors never
has `Zero` as a proper subterm — unless the whole term is `Zero`, the
constant `Zero` does not occur in it at all: the choice constructor
absorbs a `Zero` operand, sequential and parallel collapse to `Zero`
itself, and star of `Zero` is `One`. -/
theorem smart_built_no_proper_zero (t : Term) (h : SmartBuilt t) (hne : t ≠ Term.Zero) :
    Term.containsZero t = false :=
  (smartBuilt_noZero h).resolve_left hne

/-- Witness for C9 at the smart sum of a primitive and `One`. -/
theorem smart_built_no_proper_zero_witness :
    SmartBuilt (Term.add (Term.Primitive "a") Term.One) ∧
    Term.add (Term.Primitive "a") Term.One ≠ Term.Zero ∧
    Term.containsZero (Term.add (Term.Primitive "a") Term.One) = false := by
  have hs : SmartBuilt (Term.add (Term.Primitive "a") Term.One) :=
    SmartBuilt.add (SmartBuilt.prim "a") SmartBuilt.one
  exact ⟨hs, by decide, smart_built_no_proper_zero _ hs (by decide)⟩

/-- C5 (amended): `P(t)` always contains the two trivial pairs
`(t, One)` and `(One, t)`, and for these pairs the normalised parallel
composition `g ‖ h` (which is `t` itself) is contained in `t` under the
containment test of the source.  Containment fails for general pairs of
`P(t)`, see the counterexample. -/
theorem psplicings_trivial_pairs (t : Term) :
    pairMem (t, Term.One) (Term.psplicings t) = true ∧
    pairMem (Term.One, t) (Term.psplicings t) = true ∧
    Term.mem t (Term.floordiv t Term.One) = true ∧
    Term.mem t (Term.floordiv Term.One t) = true := by
  refine ⟨?_, ?_, ?_, ?_⟩
  · unfold Term.psplicings
    refine pairMem_punion.mpr (Or.inr (pairMem_pdedup.mpr ?_))
    rw [pairMem_cons]
    simp [pairBeq_refl]
  · unfold Term.psplicings
    refine pairMem_punion.mpr (Or.inr (pairMem_pdedup.mpr ?_))
    rw [pairMem_cons, pairMem_cons]
    simp [pairBeq_refl]
  · show Term.mem t t = true
    exact Term.mem_self t
  · cases t with
    | One => simp [Term.floordiv, Term.isOne, Term.mem, Term.beq_refl]
    | Zero => exact Term.mem_self Term.Zero
    | Primitive s => exact Term.mem_self (Term.Primitive s)
    | Choice l r => exact Term.mem_self (Term.Choice l r)
    | Sequential l r => exact Term.mem_self (Term.Sequential l r)
    | Parallel l r => exact Term.mem_self (Term.Parallel l r)
    | Star b => exact Term.mem_self (Term.Star b)

/-- Counterexample to C5 as stated: for the smart-built closed term
`t = a·b*`, the pair `(a, One)` belongs to `P(t)` (the right factor
`b*` is nullable, so the parallel splicings of the left factor cross
the sequence), yet `a ‖ 1 = a` is not contained in `t`: the containment
test of `Sequential` is bare printed-form equality. -/
theorem psplicings_containment_counterexample :
    pairMem (Term.Primitive "a", Term.One)
      (Term.psplicings (Term.pow (Term.Primitive "a")
        (Term.star (Term.Primitive "b")))) = true ∧
    Term.mem (Term.pow (Term.Primitive "a") (Term.star (Term.Primitive "b")))
      (Term.floordiv (Term.Primitive "a") Term.One) = false :=
  ⟨by decide, by decide⟩

namespace Term

theorem length_pos_of_ne_empty {s : String} (h : s ≠ "") : 0 < s.length := by
  cases s with
  | mk l =>
    cases l with
    | nil => exact absurd rfl h
    | cons c cs => simp [String.length]

theorem bracket_length_ge (s : String) (c p : Nat) : s.length ≤ (bracket s c p).length := by
  unfold bracket
  split
  · exact le_refl _
  · rw [String.length_append, String.length_append]
    omega

theorem prec_le_seven (t : Term) : t.prec ≤ 7 := by
  cases t <;> simp [prec]

theorem goodLetters_choice {l r : Term} (h : goodLetters (Choice l r) = true) :
    goodLetters l = true ∧ goodLetters r = true := by
  simpa [goodLetters, Bool.and_eq_true] using h

theorem goodLetters_sequential {l r : Term} (h : goodLetters (Sequential l r) = true) :
    goodLetters l = true ∧ goodLetters r = true := by
  simpa [goodLetters, Bool.and_eq_true] using h

theorem goodLetters_parallel {l r : Term} (h : goodLetters (Parallel l r) = true) :
    goodLetters l = true ∧ goodLetters r = true := by
  simpa [goodLetters, Bool.and_eq_true] using h

theorem goodLetters_star {b : Term} (h : goodLetters (Star b) = true) :
    goodLetters b = true := by
  simpa [goodLetters] using h

theorem goodLetters_primitive {s : String} (h : goodLetters (Primitive s) = true) :
    s ≠ "" ∧ s ≠ "0" ∧ s ≠ "1" := by
  have h2 : (¬s = "" ∧ ¬s = "0") ∧ ¬s = "1" := by
    simpa [goodLetters, Bool.and_eq_true] using h
  exact ⟨h2.1.1, h2.1.2, h2.2⟩

theorem str_length_pos {t : Term} (h : goodLetters t = true) : 0 < t.str.length := by
  induction t with
  | Zero => decide
  | One => decide
  | Primitive s =>
      exact length_pos_of_ne_empty (goodLetters_primitive h).1
  | Choice l r ihl ihr =>
      have h1 := bracket_length_ge (str l) l.prec (Choice l r).prec
      have h2 := ihl (goodLetters_choice h).1
      rw [str, String.length_append, String.length_append]
      omega
  | Sequential l r ihl ihr =>
      have h1 := bracket_length_ge (str l) l.prec (Sequential l r).prec
      have h2 := ihl (goodLetters_sequential h).1
      rw [str, String.length_append]
      omega
  | Parallel l r ihl ihr =>
      have h1 := bracket_length_ge (str l) l.prec (Parallel l r).prec
      have h2 := ihl (goodLetters_parallel h).1
      rw [str, String.length_append, String.length_append]
      omega
  | Star b ih =>
      rw [str, String.length_append]
      have e1 : ("*").length = 1 := rfl
      omega

theorem eq_one_of_str_one {t : Term} (hg : goodLetters t = true) (h : t.str = "1") :
    t = One := by
  have hlen : t.str.length = 1 := by rw [h]; rfl
  cases t with
  | Zero => exact absurd h (by decide)
  | One => rfl
  | Primitive s => exact absurd h (goodLetters_primitive hg).2.2
  | Choice l r =>
      exfalso
      have h1 := bracket_length_ge (str l) l.prec (Choice l r).prec
      have h2 := str_length_pos (goodLetters_choice hg).1
      rw [str, String.length_append, String.length_append] at hlen
      have : (" + ").length = 3 := rfl
      omega
  | Sequential l r =>
      exfalso
      have h1 := bracket_length_ge (str l) l.prec (Sequential l r).prec
      have h2 := str_length_pos (goodLetters_sequential hg).1
      have h3 := bracket_length_ge (str r) r.prec (Sequential l r).prec
      have h4 := str_length_pos (goodLetters_sequential hg).2
      rw [str, String.length_append] at hlen
      omega
  | Parallel l r =>
      exfalso
      have h1 := bracket_length_ge (str l) l.prec (Parallel l r).prec
      have h2 := str_length_pos (goodLetters_parallel hg).1
      have h3 := bracket_length_ge (str r) r.prec (Parallel l r).prec
      have h4 := str_length_pos (goodLetters_parallel hg).2
      rw [str, String.length_append, String.length_append] at hlen
      have : ("‖").length = 1 := rfl
      omega
  | Star b =>
      exfalso
      have h1 := bracket_length_ge (str b) b.prec (Star b).prec
      have h2 := str_length_pos (goodLetters_star hg)
      rw [str, String.length_append] at hlen
      have : ("*").length = 1 := rfl
      omega

theorem nullable_of_mem_one {a : Term} (hg : goodLetters a = true)
    (h : mem a One = true) : nullable a = true := by
  induction a with
  | Zero => exact absurd h (by decide)
  | One => rfl
  | Primitive s =>
      exfalso
      simp only [mem, beq, str] at h
      exact (goodLetters_primitive hg).2.2 (by simpa using h)
  | Choice l r ihl ihr =>
      rw [mem] at h
      simp only [Bool.or_eq_true] at h
      rcases h with (h | h) | h
      · exfalso
        have := eq_one_of_str_one hg (beq_eq_true_iff.mp h)
        exact Term.noConfusion this
      · rw [nullable]
        simp [ihl (goodLetters_choice hg).1 h]
      · rw [nullable]
        simp [ihr (goodLetters_choice hg).2 h]
  | Sequential l r ihl ihr =>
      exfalso
      simp only [mem] at h
      have := eq_one_of_str_one hg (beq_eq_true_iff.mp h)
      exact Term.noConfusion this
  | Parallel l r ihl ihr =>
      exfalso
      simp only [mem] at h
      have := eq_one_of_str_one hg (beq_eq_true_iff.mp h)
      exact Term.noConfusion this
  | Star b ih => rfl

theorem starSimp_result_star {l r u : Term} (h : starSimp l r = some u) :
    (u = l ∧ ∃ x, l = Star x) ∨ (u = r ∧ ∃ y, r = Star y) := by
  unfold starSimp at h
  split at h
  · split at h
    · cases h; exact Or.inl ⟨rfl, _, rfl⟩
    · split at h
      · split at h
        · cases h; exact Or.inr ⟨rfl, _, rfl⟩
        · cases h
      · cases h
  · split at h
    · split at h
      · cases h; exact Or.inr ⟨rfl, _, rfl⟩
      · cases h
    · cases h

theorem add_one_default_nullable {a : Term} (hne : add a One = addDefault a One)
    (hg : goodLetters a = true) (h : str (add a One) = str a) : nullable a = true := by
  by_cases h0 : a.isZero = true
  · have ha : a = Zero := by
      cases a <;> first | rfl | exact absurd h0 (by simp [isZero])
    subst ha
    exact absurd h (by decide)
  · rw [Bool.not_eq_true] at h0
    by_cases hm : mem a One = true
    · exact nullable_of_mem_one hg hm
    · rw [Bool.not_eq_true] at hm
      by_cases hm2 : mem One a = true
      · have hres : addDefault a One = One := by
          unfold addDefault
          rw [show One.isZero = false from rfl, h0, hm, hm2]
          simp
        rw [hne, hres] at h
        have ha := eq_one_of_str_one hg h.symm
        subst ha
        rfl
      · rw [Bool.not_eq_true] at hm2
        have hres : addDefault a One = Choice a One := by
          unfold addDefault
          rw [show One.isZero = false from rfl, h0, hm, hm2]
          simp
        rw [hne, hres] at h
        exfalso
        have hb : bracket a.str a.prec (Choice a One).prec = a.str :=
          bracket_le (prec_le_seven a)
        rw [str, hb] at h
        have hlen := congrArg String.length h
        rw [String.length_append, String.length_append] at hlen
        have e1 : (" + ").length = 3 := rfl
        have e2 : (bracket One.str One.prec (Choice a One).prec).length = 1 := rfl
        omega

end Term

/-- C7 (amended): for every closed term `a` whose primitive letters do
not collide with the printed grammar (no letter is "", "0" or "1"),
equality of the canonical forms of `a + One` and `a` implies
`nullable(a) = true`.  The converse direction of the claimed equivalence
is false, see the counterexample. -/
theorem nullable_of_printed_absorption (a : Term)
    (hg : Term.goodLetters a = true)
    (h : Term.str (Term.add a Term.One) = Term.str a) :
    Term.nullable a = true := by
  cases a with
  | One => rfl
  | Sequential l r =>
      rw [Term.add_seq_one] at h
      cases hs : Term.starSimp l r with
      | some u =>
          rw [hs, Option.getD_some] at h
          exfalso
          obtain ⟨hgl, hgr⟩ := Term.goodLetters_sequential hg
          have hlen := congrArg String.length h
          rcases Term.starSimp_result_star hs with ⟨rfl, x, rfl⟩ | ⟨rfl, y, rfl⟩
          · have hb : Term.bracket (Term.Star x).str (Term.Star x).prec
                (Term.Sequential (Term.Star x) r).prec = (Term.Star x).str :=
              Term.bracket_le (by simp [Term.prec])
            rw [Term.str, hb, String.length_append] at hlen
            have h1 := Term.bracket_length_ge r.str r.prec (Term.Sequential (Term.Star x) r).prec
            have h2 := Term.str_length_pos hgr
            omega
          · have hb : Term.bracket (Term.Star y).str (Term.Star y).prec
                (Term.Sequential l (Term.Star y)).prec = (Term.Star y).str :=
              Term.bracket_le (by simp [Term.prec])
            rw [Term.str, hb, String.length_append] at hlen
            have h1 := Term.bracket_length_ge l.str l.prec (Term.Sequential l (Term.Star y)).prec
            have h2 := Term.str_length_pos hgl
            omega
      | none =>
          rw [hs, Option.getD_none] at h
          exact Term.add_one_default_nullable (by rw [Term.add_seq_one, hs, Option.getD_none]) hg
            (by rw [Term.add_seq_one, hs, Option.getD_none]; exact h)
  | Zero => exact Term.add_one_default_nullable rfl hg h
  | Primitive s => exact Term.add_one_default_nullable rfl hg h
  | Choice l r => exact Term.add_one_default_nullable rfl hg h
  | Parallel l r => exact Term.add_one_default_nullable rfl hg h
  | Star b => exact Term.add_one_default_nullable rfl hg h

/-- Witness for C7 at `a = c*`: the letters are good, the printed forms
of `a + 1` and `a` coincide (`1` is absorbed by the star), and `a` is
nullable. -/
theorem nullable_of_printed_absorption_witness :
    Term.goodLetters (Term.Star (Term.Primitive "c")) = true ∧
    Term.str (Term.add (Term.Star (Term.Primitive "c")) Term.One) =
      Term.str (Term.Star (Term.Primitive "c")) ∧
    Term.nullable (Term.Star (Term.Primitive "c")) = true :=
  ⟨by decide, by decide,
    nullable_of_printed_absorption (Term.Star (Term.Primitive "c")) (by decide) (by decide)⟩

/-- Counterexample to C7 as stated (an equivalence): the smart-built
term `a = (1 + c)*·(1 + c)` is nullable, yet `a + 1` simplifies by the
star-choice rule to `(1 + c)*`, whose canonical form differs from that
of `a`. -/
theorem nullable_printed_equivalence_counterexample :
    Term.nullable (Term.pow (Term.star (Term.add Term.One (Term.Primitive "c")))
        (Term.add Term.One (Term.Primitive "c"))) = true ∧
    Term.str (Term.add (Term.pow (Term.star (Term.add Term.One (Term.Primitive "c")))
        (Term.add Term.One (Term.Primitive "c"))) Term.One) ≠
      Term.str (Term.pow (Term.star (Term.add Term.One (Term.Primitive "c")))
        (Term.add Term.One (Term.Primitive "c"))) :=
  ⟨by decide, by decide⟩

/-! Properties of the remainder overapproximation `Rhat`. -/

namespace Term

theorem pow_cases (a b : Term) :
    (b = One ∧ pow a b = a) ∨ (a = One ∧ pow a b = b) ∨ pow a b = Zero ∨
      pow a b = Sequential a b := by
  unfold pow
  split
  · rename_i h
    refine Or.inl ⟨?_, rfl⟩
    cases b <;> first | rfl | exact absurd h (by simp [isOne])
  · split
    · rename_i _ h
      refine Or.inr (Or.inl ⟨?_, rfl⟩)
      cases a <;> first | rfl | exact absurd h (by simp [isOne])
    · split
      · exact Or.inr (Or.inr (Or.inl rfl))
      · split
        · exact Or.inr (Or.inr (Or.inl rfl))
        · exact Or.inr (Or.inr (Or.inr rfl))

theorem floordiv_cases (a b : Term) :
    (b = One ∧ floordiv a b = a) ∨ (a = One ∧ floordiv a b = b) ∨ floordiv a b = Zero ∨
      floordiv a b = Parallel a b := by
  unfold floordiv
  split
  · rename_i h
    refine Or.inl ⟨?_, rfl⟩
    cases b <;> first | rfl | exact absurd h (by simp [isOne])
  · split
    · rename_i _ h
      refine Or.inr (Or.inl ⟨?_, rfl⟩)
      cases a <;> first | rfl | exact absurd h (by simp [isOne])
    · split
      · exact Or.inr (Or.inr (Or.inl rfl))
      · split
        · exact Or.inr (Or.inr (Or.inl rfl))
        · exact Or.inr (Or.inr (Or.inr rfl))

theorem self_mem_Rhat (t : Term) : t ∈ Rhat t := by
  cases t <;> exact List.mem_cons_self _ _

theorem ssplicings_rhs_mem_Rhat :
    ∀ (t : Term), ∀ p ∈ t.ssplicings, p.2 ∈ Rhat t := by
  intro t
  induction t with
  | Zero => intro p hp; cases hp
  | One =>
      intro p hp
      have hp2 : p ∈ [(One, One)] := hp
      rw [List.mem_singleton] at hp2
      subst hp2
      exact List.mem_singleton.mpr rfl
  | Primitive s =>
      intro p hp
      have hp2 := mem_pdedup_elim hp
      rcases List.mem_cons.mp hp2 with h | h
      · subst h
        exact List.mem_cons_of_mem _ (List.mem_cons_self _ _)
      · rcases List.mem_cons.mp h with h2 | h2
        · subst h2
          exact List.mem_cons_self _ _
        · cases h2
  | Choice l r ihl ihr =>
      intro p hp
      rcases mem_punion_elim hp with h | h
      · exact List.mem_cons_of_mem _ (List.mem_append.mpr (Or.inl (ihl p h)))
      · exact List.mem_cons_of_mem _ (List.mem_append.mpr (Or.inr (ihr p h)))
  | Sequential l r ihl ihr =>
      intro p hp
      rcases mem_punion_elim hp with h | h
      · have h2 := mem_pdedup_elim h
        obtain ⟨gh, hgh, hq⟩ := List.mem_map.mp h2
        subst hq
        exact List.mem_cons_of_mem _ (List.mem_append.mpr (Or.inl (ihr gh hgh)))
      · have h2 := mem_pdedup_elim h
        obtain ⟨gh, hgh, hq⟩ := List.mem_map.mp h2
        subst hq
        exact List.mem_cons_of_mem _ (List.mem_append.mpr
          (Or.inr (List.mem_map.mpr ⟨gh.2, ihl gh hgh, rfl⟩)))
  | Parallel l r ihl ihr =>
      intro p hp
      have h2 := mem_pdedup_elim hp
      obtain ⟨p1, hp1, hin⟩ := List.mem_flatMap.mp h2
      obtain ⟨p2, hp2, hq⟩ := List.mem_map.mp hin
      subst hq
      refine List.mem_cons_of_mem _ (List.mem_append.mpr (Or.inr ?_))
      exact List.mem_flatMap.mpr ⟨p1.2, ihl p1 hp1,
        List.mem_map.mpr ⟨p2.2, ihr p2 hp2, rfl⟩⟩
  | Star b ih =>
      intro p hp
      rcases mem_punion_elim hp with h | h
      · have h2 := mem_pdedup_elim h
        obtain ⟨gh, hgh, hq⟩ := List.mem_map.mp h2
        subst hq
        exact List.mem_cons_of_mem _ (List.mem_cons_of_mem _
          (List.mem_map.mpr ⟨gh.2, ih gh hgh, rfl⟩))
      · rw [List.mem_singleton] at h
        subst h
        exact List.mem_cons_of_mem _ (List.mem_cons_self _ _)

end Term

namespace Term

theorem Rhat_trans : ∀ (t : Term), ∀ u ∈ Rhat t, ∀ z ∈ Rhat u, z ∈ Rhat t := by
  intro t
  induction t with
  | Zero =>
      intro u hu z hz
      have hu2 : u ∈ [Zero] := hu
      rw [List.mem_singleton] at hu2
      subst hu2
      exact hz
  | One =>
      intro u hu z hz
      have hu2 : u ∈ [One] := hu
      rw [List.mem_singleton] at hu2
      subst hu2
      exact hz
  | Primitive s =>
      intro u hu z hz
      have hu2 : u ∈ [Primitive s, One] := hu
      rcases List.mem_cons.mp hu2 with h | h
      · subst h; exact hz
      · rcases List.mem_cons.mp h with h2 | h2
        · subst h2
          have hz2 : z ∈ [One] := hz
          rw [List.mem_singleton] at hz2
          subst hz2
          exact List.mem_cons_of_mem _ (List.mem_cons_self _ _)
        · cases h2
  | Choice l r ihl ihr =>
      intro u hu z hz
      rcases List.mem_cons.mp hu with h | h
      · subst h; exact hz
      · rcases List.mem_append.mp h with h2 | h2
        · exact List.mem_cons_of_mem _ (List.mem_append.mpr (Or.inl (ihl u h2 z hz)))
        · exact List.mem_cons_of_mem _ (List.mem_append.mpr (Or.inr (ihr u h2 z hz)))
  | Sequential l r ihl ihr =>
      intro u hu z hz
      rcases List.mem_cons.mp hu with h | h
      · subst h; exact hz
      · rcases List.mem_append.mp h with h2 | h2
        · exact List.mem_cons_of_mem _ (List.mem_append.mpr (Or.inl (ihr u h2 z hz)))
        · obtain ⟨v, hv, hq⟩ := List.mem_map.mp h2
          subst hq
          rcases pow_cases v r with ⟨hr1, hpw⟩ | ⟨hv1, hpw⟩ | hpw | hpw
          · subst hr1
            rw [hpw] at hz
            have hz2 := ihl v hv z hz
            exact List.mem_cons_of_mem _ (List.mem_append.mpr
              (Or.inr (List.mem_map.mpr ⟨z, hz2, pow_one z⟩)))
          · rw [hpw] at hz
            exact List.mem_cons_of_mem _ (List.mem_append.mpr (Or.inl hz))
          · rw [hpw] at hz
            have hz2 : z ∈ [Zero] := hz
            rw [List.mem_singleton] at hz2
            subst hz2
            exact List.mem_cons_of_mem _ (List.mem_append.mpr
              (Or.inr (List.mem_map.mpr ⟨v, hv, hpw⟩)))
          · rw [hpw] at hz
            rcases List.mem_cons.mp hz with h3 | h3
            · subst h3
              exact List.mem_cons_of_mem _ (List.mem_append.mpr
                (Or.inr (List.mem_map.mpr ⟨v, hv, hpw⟩)))
            · rcases List.mem_append.mp h3 with h4 | h4
              · exact List.mem_cons_of_mem _ (List.mem_append.mpr (Or.inl h4))
              · obtain ⟨w, hw, hq2⟩ := List.mem_map.mp h4
                subst hq2
                have hw2 := ihl v hv w hw
                exact List.mem_cons_of_mem _ (List.mem_append.mpr
                  (Or.inr (List.mem_map.mpr ⟨w, hw2, rfl⟩)))
  | Parallel l r ihl ihr =>
      intro u hu z hz
      have memL : ∀ w, w ∈ Rhat l → w ∈ Rhat (Parallel l r) := fun w hw =>
        List.mem_cons_of_mem _ (List.mem_append.mpr (Or.inl (List.mem_append.mpr (Or.inl hw))))
      have memR : ∀ w, w ∈ Rhat r → w ∈ Rhat (Parallel l r) := fun w hw =>
        List.mem_cons_of_mem _ (List.mem_append.mpr (Or.inl (List.mem_append.mpr (Or.inr hw))))
      have memP : ∀ x y, x ∈ Rhat l → y ∈ Rhat r → ∀ w, w = x.floordiv y →
          w ∈ Rhat (Parallel l r) := fun x y hx hy w hw =>
        List.mem_cons_of_mem _ (List.mem_append.mpr (Or.inr (List.mem_flatMap.mpr
          ⟨x, hx, List.mem_map.mpr ⟨y, hy, hw.symm⟩⟩)))
      rcases List.mem_cons.mp hu with h | h
      · subst h; exact hz
      · rcases List.mem_append.mp h with h2 | h2
        · rcases List.mem_append.mp h2 with h3 | h3
          · exact memL z (ihl u h3 z hz)
          · exact memR z (ihr u h3 z hz)
        · obtain ⟨a, ha, hin⟩ := List.mem_flatMap.mp h2
          obtain ⟨b, hb, hq⟩ := List.mem_map.mp hin
          subst hq
          rcases floordiv_cases a b with ⟨hb1, hfd⟩ | ⟨ha1, hfd⟩ | hfd | hfd
          · rw [hfd] at hz
            exact memL z (ihl a ha z hz)
          · rw [hfd] at hz
            exact memR z (ihr b hb z hz)
          · rw [hfd] at hz
            have hz2 : z ∈ [Zero] := hz
            rw [List.mem_singleton] at hz2
            subst hz2
            exact memP a b ha hb _ hfd.symm
          · rw [hfd] at hz
            rcases List.mem_cons.mp hz with h4 | h4
            · subst h4
              exact memP a b ha hb _ hfd.symm
            · rcases List.mem_append.mp h4 with h5 | h5
              · rcases List.mem_append.mp h5 with h6 | h6
                · exact memL z (ihl a ha z h6)
                · exact memR z (ihr b hb z h6)
              · obtain ⟨x, hx, hin2⟩ := List.mem_flatMap.mp h5
                obtain ⟨y, hy, hq2⟩ := List.mem_map.mp hin2
                subst hq2
                exact memP x y (ihl a ha x hx) (ihr b hb y hy) _ rfl
  | Star b ihb =>
      intro u hu z hz
      rcases List.mem_cons.mp hu with h | h
      · subst h; exact hz
      · rcases List.mem_cons.mp h with h2 | h2
        · subst h2
          have hz2 : z ∈ [One] := hz
          rw [List.mem_singleton] at hz2
          subst hz2
          exact List.mem_cons_of_mem _ (List.mem_cons_self _ _)
        · obtain ⟨v, hv, hq⟩ := List.mem_map.mp h2
          subst hq
          rcases pow_cases v (Star b) with ⟨hb1, hpw⟩ | ⟨hv1, hpw⟩ | hpw | hpw
          · exact Term.noConfusion hb1
          · rw [hpw] at hz
            exact hz
          · rw [hpw] at hz
            have hz2 : z ∈ [Zero] := hz
            rw [List.mem_singleton] at hz2
            subst hz2
            exact List.mem_cons_of_mem _ (List.mem_cons_of_mem _
              (List.mem_map.mpr ⟨v, hv, hpw⟩))
          · rw [hpw] at hz
            rcases List.mem_cons.mp hz with h3 | h3
            · subst h3
              exact List.mem_cons_of_mem _ (List.mem_cons_of_mem _
                (List.mem_map.mpr ⟨v, hv, hpw⟩))
            · rcases List.mem_append.mp h3 with h4 | h4
              · exact h4
              · obtain ⟨w, hw, hq2⟩ := List.mem_map.mp h4
                subst hq2
                exact List.mem_cons_of_mem _ (List.mem_cons_of_mem _
                  (List.mem_map.mpr ⟨w, ihb v hv w hw, rfl⟩))

end Term

/-! Behaviour of the remainder computation. -/

theorem tmem_mono_of_sub {X Y : List Term} (hsub : ∀ z ∈ X, z ∈ Y) {x : Term}
    (h : tmem x X = true) : tmem x Y = true := by
  obtain ⟨z, hz, hb⟩ := tmem_exists h
  exact tmem_of_beq hb (tmem_of_mem (hsub z hz))

namespace Term

theorem remLoop_grow (f : Term → List Term → Option (List Term)) :
    ∀ (todo : List (Term × Term)) (acc R : List Term),
      remLoop f todo acc = some R → ∀ z ∈ acc, z ∈ R := by
  intro todo
  induction todo with
  | nil =>
      intro acc R h z hz
      cases h
      exact hz
  | cons gh todo ih =>
      intro acc R h z hz
      rw [remLoop] at h
      split at h
      · exact ih acc R h z hz
      · obtain ⟨r, _, hrest⟩ := Option.bind_eq_some.mp h
        exact ih _ R hrest z (mem_tunion_of_mem_left hz)

theorem remaindersF_grow :
    ∀ (n : Nat) (t : Term) (seen R : List Term),
      remaindersF n t seen = some R → ∀ z ∈ tinsert seen t, z ∈ R := by
  intro n t seen R h
  cases n with
  | zero => cases h
  | succ n => exact remLoop_grow (remaindersF n) t.ssplicings (tinsert seen t) R h

theorem remLoop_sub {univ : List Term} {f : Term → List Term → Option (List Term)}
    (hf : ∀ t seen R, (∀ z ∈ Rhat t, z ∈ univ) → (∀ z ∈ seen, z ∈ univ) →
      f t seen = some R → ∀ z ∈ R, z ∈ univ) :
    ∀ (todo : List (Term × Term)) (acc R : List Term),
      (∀ p ∈ todo, ∀ z ∈ Rhat p.2, z ∈ univ) → (∀ z ∈ acc, z ∈ univ) →
      remLoop f todo acc = some R → ∀ z ∈ R, z ∈ univ := by
  intro todo
  induction todo with
  | nil =>
      intro acc R _ hacc h
      cases h
      exact hacc
  | cons gh todo ih =>
      intro acc R htodo hacc h
      rw [remLoop] at h
      split at h
      · exact ih acc R (fun p hp => htodo p (List.mem_cons_of_mem _ hp)) hacc h
      · obtain ⟨r, hr, hrest⟩ := Option.bind_eq_some.mp h
        have hrsub : ∀ z ∈ r, z ∈ univ :=
          hf gh.2 acc r (htodo gh (List.mem_cons_self _ _)) hacc hr
        refine ih _ R (fun p hp => htodo p (List.mem_cons_of_mem _ hp)) ?_ hrest
        intro z hz
        rcases mem_tunion_elim hz with h2 | h2
        · exact hacc z h2
        · exact hrsub z h2

theorem remaindersF_sub {univ : List Term} :
    ∀ (n : Nat) (t : Term) (seen R : List Term),
      (∀ z ∈ Rhat t, z ∈ univ) → (∀ z ∈ seen, z ∈ univ) →
      remaindersF n t seen = some R → ∀ z ∈ R, z ∈ univ := by
  intro n
  induction n with
  | zero => intro t seen R _ _ h; cases h
  | succ n ih =>
      intro t seen R ht hseen h
      refine remLoop_sub ih t.ssplicings (tinsert seen t) R ?_ ?_ h
      · intro p hp z hz
        exact ht z (Rhat_trans t p.2 (ssplicings_rhs_mem_Rhat t p hp) z hz)
      · intro z hz
        rcases mem_tinsert_elim hz with h2 | h2
        · exact hseen z h2
        · subst h2
          exact ht z (self_mem_Rhat z)

theorem remLoop_closed {f : Term → List Term → Option (List Term)}
    (hf_grow : ∀ t seen R, f t seen = some R → ∀ z ∈ tinsert seen t, z ∈ R)
    (hf_closed : ∀ t seen R, f t seen = some R →
      ∀ u ∈ R, u ∈ seen ∨ ∀ p ∈ u.ssplicings, tmem p.2 R = true) :
    ∀ (todo : List (Term × Term)) (acc R : List Term),
      remLoop f todo acc = some R →
      (∀ u ∈ R, u ∈ acc ∨ ∀ p ∈ u.ssplicings, tmem p.2 R = true) ∧
      (∀ p ∈ todo, tmem p.2 R = true) := by
  intro todo
  induction todo with
  | nil =>
      intro acc R h
      cases h
      exact ⟨fun u hu => Or.inl hu, fun p hp => absurd hp (List.not_mem_nil p)⟩
  | cons gh todo ih =>
      intro acc R h
      rw [remLoop] at h
      split at h
      · rename_i hmem
        obtain ⟨h1, h2⟩ := ih acc R h
        refine ⟨h1, ?_⟩
        intro p hp
        rcases List.mem_cons.mp hp with h3 | h3
        · subst h3
          exact tmem_mono_of_sub (remLoop_grow f todo acc R h) hmem
        · exact h2 p h3
      · obtain ⟨r, hr, hrest⟩ := Option.bind_eq_some.mp h
        obtain ⟨h1, h2⟩ := ih _ R hrest
        have hgrow := remLoop_grow f todo (tunion acc r) R hrest
        have hr_in_R : ∀ z, tmem z r = true → tmem z R = true := by
          intro z hz
          refine tmem_mono_of_sub hgrow ?_
          exact tmem_tunion.mpr (Or.inr hz)
        refine ⟨?_, ?_⟩
        · intro u hu
          rcases h1 u hu with h3 | h3
          · rcases mem_tunion_elim h3 with h4 | h4
            · exact Or.inl h4
            · rcases hf_closed gh.2 acc r hr u h4 with h5 | h5
              · exact Or.inl h5
              · exact Or.inr fun p hp => hr_in_R p.2 (h5 p hp)
          · exact Or.inr h3
        · intro p hp
          rcases List.mem_cons.mp hp with h3 | h3
          · subst h3
            have hg2 := hf_grow p.2 acc r hr
            have : tmem p.2 r = true :=
              tmem_mono_of_sub hg2 (tmem_tinsert_self acc p.2)
            exact hr_in_R p.2 this
          · exact h2 p h3

theorem remaindersF_closed :
    ∀ (n : Nat) (t : Term) (seen R : List Term),
      remaindersF n t seen = some R →
      ∀ u ∈ R, u ∈ seen ∨ ∀ p ∈ u.ssplicings, tmem p.2 R = true := by
  intro n
  induction n with
  | zero => intro t seen R h; cases h
  | succ n ih =>
      intro t seen R h u hu
      obtain ⟨h1, h2⟩ := remLoop_closed (remaindersF_grow n) ih
        t.ssplicings (tinsert seen t) R h
      rcases h1 u hu with h3 | h3
      · rcases mem_tinsert_elim h3 with h4 | h4
        · exact Or.inl h4
        · subst h4
          exact Or.inr fun p hp => h2 p hp
      · exact Or.inr h3

end Term

theorem filter_length_mono {α : Type} (l : List α) (p q : α → Bool)
    (h : ∀ x ∈ l, p x = true → q x = true) :
    (l.filter p).length ≤ (l.filter q).length := by
  induction l with
  | nil => simp
  | cons a l ih =>
      have ih2 := ih fun x hx => h x (List.mem_cons_of_mem _ hx)
      simp only [List.filter_cons]
      by_cases hpa : p a = true
      · rw [if_pos hpa, if_pos (h a (List.mem_cons_self a l) hpa)]
        simpa using ih2
      · rw [if_neg hpa]
        by_cases hqa : q a = true
        · rw [if_pos hqa]
          simp only [List.length_cons]
          omega
        · rw [if_neg hqa]
          exact ih2

theorem filter_length_succ {α : Type} (l : List α) (p q : α → Bool) (u : α)
    (hu : u ∈ l) (hpu : p u = false) (hqu : q u = true)
    (h : ∀ x ∈ l, p x = true → q x = true) :
    (l.filter p).length + 1 ≤ (l.filter q).length := by
  induction l with
  | nil => cases hu
  | cons a l ih =>
      simp only [List.filter_cons]
      rcases List.mem_cons.mp hu with h1 | h1
      · subst h1
        rw [if_neg (by simp [hpu]), if_pos (by simp [hqu])]
        simp only [List.length_cons]
        exact Nat.succ_le_succ
          (filter_length_mono l p q fun x hx => h x (List.mem_cons_of_mem _ hx))
      · have ih2 := ih h1 fun x hx => h x (List.mem_cons_of_mem _ hx)
        by_cases hpa : p a = true
        · rw [if_pos hpa, if_pos (h a (List.mem_cons_self a l) hpa)]
          simp only [List.length_cons]
          omega
        · rw [if_neg hpa]
          by_cases hqa : q a = true
          · rw [if_pos hqa]
            simp only [List.length_cons]
            omega
          · rw [if_neg hqa]
            exact ih2

theorem ccount_le (univ X : List Term) : ccount univ X ≤ (tdedup univ).length :=
  List.length_filter_le _ _

theorem ccount_mono (univ : List Term) {X Y : List Term}
    (h : ∀ z, tmem z X = true → tmem z Y = true) : ccount univ X ≤ ccount univ Y :=
  filter_length_mono _ _ _ fun x _ hx => h x hx

theorem ccount_succ_le (univ : List Term) {X : List Term} {x : Term}
    (hx : x ∈ univ) (hnot : tmem x X = false) :
    ccount univ X + 1 ≤ ccount univ (tinsert X x) := by
  have hxm : tmem x (tdedup univ) = true := tmem_tdedup.mpr (tmem_of_mem hx)
  obtain ⟨u, hu, hbu⟩ := tmem_exists hxm
  refine filter_length_succ _ _ _ u hu ?_ ?_ ?_
  · cases hcase : tmem u X with
    | false => rfl
    | true => exact absurd (tmem_of_beq hbu hcase) (by simp [hnot])
  · exact tmem_of_beq (Term.beq_symm hbu) (tmem_tinsert_self X x)
  · intro z _ hz
    exact tmem_tinsert.mpr (Or.inl hz)

theorem tdedup_length_le (xs : List Term) : (tdedup xs).length ≤ xs.length := by
  have key : ∀ (ys acc : List Term), (ys.foldl tinsert acc).length ≤ acc.length + ys.length := by
    intro ys
    induction ys with
    | nil => intro acc; simp
    | cons y ys ih =>
        intro acc
        have h1 : (tinsert acc y).length ≤ acc.length + 1 := by
          unfold tinsert
          split
          · exact Nat.le_succ _
          · simp
        calc ((y :: ys).foldl tinsert acc).length
            = (ys.foldl tinsert (tinsert acc y)).length := rfl
          _ ≤ (tinsert acc y).length + ys.length := ih _
          _ ≤ acc.length + 1 + ys.length := by omega
          _ = acc.length + (y :: ys).length := by simp [List.length_cons]; omega
  simpa using key xs []

namespace Term

theorem remLoop_success {univ : List Term} (n : Nat)
    (f : Term → List Term → Option (List Term))
    (hf_success : ∀ t seen, (∀ z ∈ Rhat t, z ∈ univ) → (∀ z ∈ seen, z ∈ univ) →
      (tdedup univ).length < n + ccount univ (tinsert seen t) → (f t seen).isSome = true)
    (hf_sub : ∀ t seen R, (∀ z ∈ Rhat t, z ∈ univ) → (∀ z ∈ seen, z ∈ univ) →
      f t seen = some R → ∀ z ∈ R, z ∈ univ) :
    ∀ (todo : List (Term × Term)) (acc : List Term),
      (∀ p ∈ todo, ∀ z ∈ Rhat p.2, z ∈ univ) → (∀ p ∈ todo, p.2 ∈ univ) →
      (∀ z ∈ acc, z ∈ univ) →
      (tdedup univ).length < (n + 1) + ccount univ acc →
      (remLoop f todo acc).isSome = true := by
  intro todo
  induction todo with
  | nil => intro acc _ _ _ _; rfl
  | cons gh todo ih =>
      intro acc htodo htodo2 hacc hbound
      rw [remLoop]
      split
      · exact ih acc (fun p hp => htodo p (List.mem_cons_of_mem _ hp))
          (fun p hp => htodo2 p (List.mem_cons_of_mem _ hp)) hacc hbound
      · rename_i hnew
        rw [Bool.not_eq_true] at hnew
        have hcc : ccount univ acc + 1 ≤ ccount univ (tinsert acc gh.2) :=
          ccount_succ_le univ (htodo2 gh (List.mem_cons_self _ _)) hnew
        have hsome := hf_success gh.2 acc (htodo gh (List.mem_cons_self _ _)) hacc
          (by omega)
        obtain ⟨r, hr⟩ := Option.isSome_iff_exists.mp hsome
        rw [hr]
        show (remLoop f todo (tunion acc r)).isSome = true
        have hrsub := hf_sub gh.2 acc r (htodo gh (List.mem_cons_self _ _)) hacc hr
        refine ih (tunion acc r) (fun p hp => htodo p (List.mem_cons_of_mem _ hp))
          (fun p hp => htodo2 p (List.mem_cons_of_mem _ hp)) ?_ ?_
        · intro z hz
          rcases mem_tunion_elim hz with h2 | h2
          · exact hacc z h2
          · exact hrsub z h2
        · have hmono : ccount univ acc ≤ ccount univ (tunion acc r) :=
            ccount_mono univ fun z hz => tmem_tunion.mpr (Or.inl hz)
          omega

theorem remaindersF_success {univ : List Term} :
    ∀ (n : Nat) (t : Term) (seen : List Term),
      (∀ z ∈ Rhat t, z ∈ univ) → (∀ z ∈ seen, z ∈ univ) →
      (tdedup univ).length < n + ccount univ (tinsert seen t) →
      (remaindersF n t seen).isSome = true := by
  intro n
  induction n with
  | zero =>
      intro t seen _ _ hbound
      have := ccount_le univ (tinsert seen t)
      omega
  | succ n ih =>
      intro t seen ht hseen hbound
      rw [show remaindersF (n + 1) t seen
          = remLoop (remaindersF n) t.ssplicings (tinsert seen t) from rfl]
      refine remLoop_success n (remaindersF n) ih (fun a b c => remaindersF_sub n a b c)
        t.ssplicings (tinsert seen t) ?_ ?_ ?_ hbound
      · intro p hp z hz
        exact ht z (Rhat_trans t p.2 (ssplicings_rhs_mem_Rhat t p hp) z hz)
      · intro p hp
        exact ht p.2 (ssplicings_rhs_mem_Rhat t p hp)
      · intro z hz
        rcases mem_tinsert_elim hz with h2 | h2
        · exact hseen z h2
        · subst h2
          exact ht z (self_mem_Rhat z)

end Term

/-- C4: for every closed term `t`, `remainders()` (with the default
`seen`) terminates — the proven fuel bound `remBound t` suffices — and
the returned set `R(t)` contains `t` and is closed under taking right
components of sequential splicings: for every `u` in `R(t)` and every
pair `(_, v)` in `S(u)`, `v` is in `R(t)`.  `R(t)` is finite: it is
returned as a (duplicate-free) finite list. -/
theorem remainders_spec (t : Term) :
    ∃ R, Term.remainders t = some R ∧ tmem t R = true ∧
      ∀ u ∈ R, ∀ p ∈ Term.ssplicings u, tmem p.2 R = true := by
  have hsome : (Term.remaindersF (Term.remBound t) t []).isSome = true := by
    refine Term.remaindersF_success (Term.remBound t) t []
      (fun z hz => hz) (fun z hz => absurd hz (List.not_mem_nil z)) ?_
    have h1 := tdedup_length_le (Term.Rhat t)
    unfold Term.remBound
    omega
  obtain ⟨R, hR⟩ := Option.isSome_iff_exists.mp hsome
  refine ⟨R, hR, ?_, ?_⟩
  · have hgrow := Term.remaindersF_grow (Term.remBound t) t [] R hR
    have ht : t ∈ tinsert [] t := by
      unfold tinsert
      simp [tmem]
    exact tmem_of_mem (hgrow t ht)
  · intro u hu p hp
    rcases Term.remaindersF_closed (Term.remBound t) t [] R hR u hu with h | h
    · exact absurd h (List.not_mem_nil u)
    · exact h p hp

/-! Properties of the solver. -/

theorem opt_eq_some_getD {o : Option Term} (h : o.isSome = true) :
    o = some (o.getD Term.Zero) := by
  cases o with
  | none => cases h
  | some x => rfl

theorem strNodup_cons {e : Term} {rest : List Term} (h : StrNodup (e :: rest)) :
    (∀ v ∈ rest, Term.beq e v = false) ∧ StrNodup rest :=
  List.pairwise_cons.mp h

theorem beq_false_symm {a b : Term} (h : Term.beq a b = false) :
    Term.beq b a = false := by
  cases hc : Term.beq b a with
  | false => rfl
  | true => exact absurd (Term.beq_symm hc) (by simp [h])

theorem filter_ne_pivot {e : Term} {rest : List Term}
    (h : ∀ v ∈ rest, Term.beq e v = false) :
    (rest.filter fun v => !(Term.beq v e)) = rest := by
  refine List.filter_eq_self.mpr ?_
  intro v hv
  rw [beq_false_symm (h v hv)]
  rfl

theorem mapM_dict1 (g : Term → Option Term) :
    ∀ (ks : List Term) (d : Dict1),
      (ks.mapM fun v => do
        let x ← g v
        pure ((v, x) : Term × Term)) = some d →
      (∀ kv ∈ d, kv.1 ∈ ks) ∧
      (StrNodup ks → ∀ v ∈ ks, dlookup1 d v = g v) := by
  intro ks
  induction ks with
  | nil =>
      intro d h
      cases h
      exact ⟨fun kv hkv => absurd hkv (List.not_mem_nil kv),
        fun _ v hv => absurd hv (List.not_mem_nil v)⟩
  | cons k ks ih =>
      intro d h
      rw [List.mapM_cons] at h
      obtain ⟨pr, hpr, h2⟩ := Option.bind_eq_some.mp h
      obtain ⟨z, hz, hz2⟩ := Option.bind_eq_some.mp hpr
      cases hz2
      obtain ⟨tl, htl, h3⟩ := Option.bind_eq_some.mp h2
      cases h3
      obtain ⟨ih1, ih2⟩ := ih tl htl
      constructor
      · intro kv hkv
        rcases List.mem_cons.mp hkv with h4 | h4
        · subst h4
          exact List.mem_cons_self k ks
        · exact List.mem_cons_of_mem _ (ih1 kv h4)
      · intro hnd v hv
        obtain ⟨hk, hnd2⟩ := strNodup_cons hnd
        rcases List.mem_cons.mp hv with h4 | h4
        · subst h4
          simp [dlookup1, List.find?_cons, Term.beq_refl, hz]
        · have hb : Term.beq k v = false := hk v h4
          simp only [dlookup1, List.find?_cons, hb]
          exact ih2 hnd2 v h4

theorem mapM_dict1_success (g : Term → Option Term) :
    ∀ (ks : List Term), (∀ v ∈ ks, (g v).isSome = true) →
      ∃ d, (ks.mapM fun v => do
        let x ← g v
        pure ((v, x) : Term × Term)) = some d := by
  intro ks
  induction ks with
  | nil => intro _; exact ⟨[], rfl⟩
  | cons k ks ih =>
      intro h
      obtain ⟨x, hx⟩ := Option.isSome_iff_exists.mp (h k (List.mem_cons_self _ _))
      obtain ⟨tl, htl⟩ := ih fun v hv => h v (List.mem_cons_of_mem _ hv)
      refine ⟨(k, x) :: tl, ?_⟩
      rw [List.mapM_cons, hx, htl]
      rfl

theorem mapM_dictRow (g : Term → Term → Option Term) (v1 : Term) :
    ∀ (ks : List Term) (row : Dict2),
      (ks.mapM fun v2 => do
        let x ← g v1 v2
        pure (((v1, v2), x) : (Term × Term) × Term)) = some row →
      (∀ kv ∈ row, kv.1.1 = v1 ∧ kv.1.2 ∈ ks) ∧
      (StrNodup ks → ∀ v2 ∈ ks, dlookup2 row v1 v2 = g v1 v2) := by
  intro ks
  induction ks with
  | nil =>
      intro row h
      cases h
      exact ⟨fun kv hkv => absurd hkv (List.not_mem_nil kv),
        fun _ v hv => absurd hv (List.not_mem_nil v)⟩
  | cons k ks ih =>
      intro row h
      rw [List.mapM_cons] at h
      obtain ⟨pr, hpr, h2⟩ := Option.bind_eq_some.mp h
      obtain ⟨z, hz, hz2⟩ := Option.bind_eq_some.mp hpr
      cases hz2
      obtain ⟨tl, htl, h3⟩ := Option.bind_eq_some.mp h2
      cases h3
      obtain ⟨ih1, ih2⟩ := ih tl htl
      constructor
      · intro kv hkv
        rcases List.mem_cons.mp hkv with h4 | h4
        · subst h4
          exact ⟨rfl, List.mem_cons_self k ks⟩
        · exact ⟨(ih1 kv h4).1, List.mem_cons_of_mem _ (ih1 kv h4).2⟩
      · intro hnd v hv
        obtain ⟨hk, hnd2⟩ := strNodup_cons hnd
        rcases List.mem_cons.mp hv with h4 | h4
        · subst h4
          simp [dlookup2, List.find?_cons, Term.beq_refl, hz]
        · have hb : Term.beq k v = false := hk v h4
          simp only [dlookup2, List.find?_cons, hb, Bool.and_false]
          exact ih2 hnd2 v h4

theorem mapM_dictRow_success (g : Term → Term → Option Term) (v1 : Term) :
    ∀ (ks : List Term), (∀ v2 ∈ ks, (g v1 v2).isSome = true) →
      ∃ row, (ks.mapM fun v2 => do
        let x ← g v1 v2
        pure (((v1, v2), x) : (Term × Term) × Term)) = some row := by
  intro ks
  induction ks with
  | nil => intro _; exact ⟨[], rfl⟩
  | cons k ks ih =>
      intro h
      obtain ⟨x, hx⟩ := Option.isSome_iff_exists.mp (h k (List.mem_cons_self _ _))
      obtain ⟨tl, htl⟩ := ih fun v hv => h v (List.mem_cons_of_mem _ hv)
      refine ⟨((v1, k), x) :: tl, ?_⟩
      rw [List.mapM_cons, hx, htl]
      rfl

theorem dlookup2_none_of_keys {d : Dict2} {k1 k2 : Term}
    (h : ∀ kv ∈ d, Term.beq kv.1.1 k1 = false) :
    dlookup2 d k1 k2 = none := by
  unfold dlookup2
  rw [List.find?_eq_none.mpr]
  · rfl
  · intro kv hkv
    simp [h kv hkv]

theorem dlookup2_append_left {d1 d2 : Dict2} {k1 k2 : Term}
    (h : dlookup2 d2 k1 k2 = none) :
    dlookup2 (d1 ++ d2) k1 k2 = dlookup2 d1 k1 k2 := by
  unfold dlookup2 at h ⊢
  have h2 : (d2.find? fun kv => Term.beq kv.1.1 k1 && Term.beq kv.1.2 k2) = none := by
    cases hf2 : d2.find? fun kv => Term.beq kv.1.1 k1 && Term.beq kv.1.2 k2 with
    | none => rfl
    | some x => rw [hf2] at h; cases h
  rw [List.find?_append, h2, Option.or_none]

theorem dlookup2_append_right {d1 d2 : Dict2} {k1 k2 : Term}
    (h : dlookup2 d1 k1 k2 = none) :
    dlookup2 (d1 ++ d2) k1 k2 = dlookup2 d2 k1 k2 := by
  unfold dlookup2 at h ⊢
  have h2 : (d1.find? fun kv => Term.beq kv.1.1 k1 && Term.beq kv.1.2 k2) = none := by
    cases hf2 : d1.find? fun kv => Term.beq kv.1.1 k1 && Term.beq kv.1.2 k2 with
    | none => rfl
    | some x => rw [hf2] at h; cases h
  rw [List.find?_append, h2, Option.none_or]

theorem mapM_dictRows (g : Term → Term → Option Term) (ks2 : List Term) :
    ∀ (ks1 : List Term) (rows : List Dict2),
      (ks1.mapM fun v1 => ks2.mapM fun v2 => do
        let x ← g v1 v2
        pure (((v1, v2), x) : (Term × Term) × Term)) = some rows →
      (∀ kv ∈ rows.flatten, kv.1.1 ∈ ks1) ∧
      (StrNodup ks1 → StrNodup ks2 →
        ∀ v1 ∈ ks1, ∀ v2 ∈ ks2, dlookup2 rows.flatten v1 v2 = g v1 v2) := by
  intro ks1
  induction ks1 with
  | nil =>
      intro rows h
      cases h
      exact ⟨fun kv hkv => absurd hkv (List.not_mem_nil kv),
        fun _ _ v hv => absurd hv (List.not_mem_nil v)⟩
  | cons k1 ks1 ih =>
      intro rows h
      rw [List.mapM_cons] at h
      obtain ⟨row, hrow, h2⟩ := Option.bind_eq_some.mp h
      obtain ⟨tl, htl, h3⟩ := Option.bind_eq_some.mp h2
      cases h3
      obtain ⟨ihk, ihl⟩ := ih tl htl
      obtain ⟨rk, rl⟩ := mapM_dictRow g k1 ks2 row hrow
      constructor
      · intro kv hkv
        rw [List.flatten_cons] at hkv
        rcases List.mem_append.mp hkv with h4 | h4
        · rw [(rk kv h4).1]
          exact List.mem_cons_self k1 ks1
        · exact List.mem_cons_of_mem _ (ihk kv h4)
      · intro hnd1 hnd2 v1 hv1 v2 hv2
        obtain ⟨hk, hnd1t⟩ := strNodup_cons hnd1
        rw [List.flatten_cons]
        rcases List.mem_cons.mp hv1 with h4 | h4
        · subst h4
          rw [dlookup2_append_left, rl hnd2 v2 hv2]
          refine dlookup2_none_of_keys ?_
          intro kv hkv
          have hin := ihk kv hkv
          exact beq_false_symm (hk kv.1.1 hin)
        · rw [dlookup2_append_right, ihl hnd1t hnd2 v1 h4 v2 hv2]
          refine dlookup2_none_of_keys ?_
          intro kv hkv
          rw [(rk kv hkv).1]
          exact hk v1 h4

theorem mapM_dictRows_success (g : Term → Term → Option Term) (ks2 : List Term) :
    ∀ (ks1 : List Term), (∀ v1 ∈ ks1, ∀ v2 ∈ ks2, (g v1 v2).isSome = true) →
      ∃ rows, (ks1.mapM fun v1 => ks2.mapM fun v2 => do
        let x ← g v1 v2
        pure (((v1, v2), x) : (Term × Term) × Term)) = some rows := by
  intro ks1
  induction ks1 with
  | nil => intro _; exact ⟨[], rfl⟩
  | cons k1 ks1 ih =>
      intro h
      obtain ⟨row, hrow⟩ :=
        mapM_dictRow_success g k1 ks2 (h k1 (List.mem_cons_self _ _))
      obtain ⟨tl, htl⟩ := ih fun v1 hv1 => h v1 (List.mem_cons_of_mem _ hv1)
      refine ⟨row :: tl, ?_⟩
      rw [List.mapM_cons, hrow, htl]
      rfl

theorem dlookup1_none_of_keys {d : Dict1} {k : Term}
    (h : ∀ kv ∈ d, Term.beq kv.1 k = false) :
    dlookup1 d k = none := by
  unfold dlookup1
  rw [List.find?_eq_none.mpr]
  · rfl
  · intro kv hkv
    simp [h kv hkv]

theorem dlookup1_append (d1 d2 : Dict1) (k : Term) :
    dlookup1 (d1 ++ d2) k = (dlookup1 d1 k).or (dlookup1 d2 k) := by
  unfold dlookup1
  rw [List.find?_append]
  cases d1.find? fun kv => Term.beq kv.1 k with
  | none => rfl
  | some x => rfl

theorem reducedVectorEntry_eq {matrix : Dict2} {vector : Dict1} {e v : Term}
    (h1 : (dlookup1 vector v).isSome = true)
    (h2 : (dlookup2 matrix v e).isSome = true)
    (h3 : (dlookup1 vector e).isSome = true) :
    reducedVectorEntry matrix vector e v =
      some (Term.add (dget1 vector v) (Term.pow (dget2 matrix v e) (dget1 vector e))) := by
  unfold reducedVectorEntry
  rw [opt_eq_some_getD h1, opt_eq_some_getD h2, opt_eq_some_getD h3]
  rfl

theorem reducedMatrixEntry_eq {matrix : Dict2} {e v1 v2 : Term}
    (h1 : (dlookup2 matrix v1 e).isSome = true)
    (h2 : (dlookup2 matrix e e).isSome = true)
    (h3 : (dlookup2 matrix e v2).isSome = true)
    (h4 : (dlookup2 matrix v1 v2).isSome = true) :
    reducedMatrixEntry matrix e v1 v2 =
      some (Term.add (Term.pow (dget2 matrix v1 e)
        (Term.pow (Term.star (dget2 matrix e e)) (dget2 matrix e v2)))
        (dget2 matrix v1 v2)) := by
  unfold reducedMatrixEntry
  rw [opt_eq_some_getD h1, opt_eq_some_getD h2, opt_eq_some_getD h3, opt_eq_some_getD h4]
  rfl

theorem backSubstitute_eq {matrix : Dict2} {sol : Dict1} {e : Term} :
    ∀ (reuse : List Term) (be : Term),
      (∀ v ∈ reuse, (dlookup2 matrix e v).isSome = true) →
      (∀ v ∈ reuse, (dlookup1 sol v).isSome = true) →
      (dlookup2 matrix e e).isSome = true →
      backSubstitute matrix sol e reuse be =
        some (Term.pow (Term.star (dget2 matrix e e))
          (reuse.foldl (fun acc v => Term.add acc
            (Term.pow (dget2 matrix e v) (dget1 sol v))) be)) := by
  intro reuse
  induction reuse with
  | nil =>
      intro be _ _ hee
      unfold backSubstitute
      rw [show ([] : List Term).foldlM (m := Option) (fun acc v => do
          let aev ← dlookup2 matrix e v
          let xv ← dlookup1 sol v
          pure (Term.add acc (Term.pow aev xv))) be = some be from rfl]
      rw [opt_eq_some_getD hee]
      rfl
  | cons v reuse ih =>
      intro be hm hs hee
      have h1 := hm v (List.mem_cons_self _ _)
      have h2 := hs v (List.mem_cons_self _ _)
      have ihv := ih (Term.add be (Term.pow (dget2 matrix e v) (dget1 sol v)))
        (fun w hw => hm w (List.mem_cons_of_mem _ hw))
        (fun w hw => hs w (List.mem_cons_of_mem _ hw)) hee
      unfold backSubstitute at ihv ⊢
      rw [List.foldlM_cons]
      rw [opt_eq_some_getD h1, opt_eq_some_getD h2]
      exact ihv

theorem solveAux_keys :
    ∀ (n : Nat) (syms : List Term) (matrix : Dict2) (vector : Dict1) (sol : Dict1),
      solveAux n syms matrix vector = some sol → ∀ kv ∈ sol, tmem kv.1 syms = true := by
  intro n
  induction n with
  | zero => intro syms m v sol h; cases h
  | succ n ih =>
      intro syms m v sol h
      cases syms with
      | nil => cases h
      | cons e rest =>
          rw [solveAux] at h
          split at h
          · obtain ⟨aee, haee, h2⟩ := Option.bind_eq_some.mp h
            obtain ⟨be, hbe, h3⟩ := Option.bind_eq_some.mp h2
            cases h3
            intro kv hkv
            rw [List.mem_singleton] at hkv
            subst hkv
            rw [tmem_cons, Term.beq_refl]
            rfl
          · obtain ⟨subv, hsubv, h2⟩ := Option.bind_eq_some.mp h
            obtain ⟨subm, hsubm, h3⟩ := Option.bind_eq_some.mp h2
            obtain ⟨subsol, hsubsol, h4⟩ := Option.bind_eq_some.mp h3
            obtain ⟨be, hbe, h5⟩ := Option.bind_eq_some.mp h4
            obtain ⟨xe, hxe, h6⟩ := Option.bind_eq_some.mp h5
            cases h6
            intro kv hkv
            rcases List.mem_append.mp hkv with h7 | h7
            · have h8 := ih _ _ _ _ hsubsol kv h7
              obtain ⟨w, hw, hbw⟩ := tmem_exists h8
              have hw2 : w ∈ rest := List.mem_of_mem_filter hw
              rw [tmem_cons]
              have h9 : tmem kv.1 rest = true := tmem_of_beq hbw (tmem_of_mem hw2)
              rw [h9]
              simp
            · rw [List.mem_singleton] at h7
              subst h7
              rw [tmem_cons, Term.beq_refl]
              rfl

theorem solveAux_single (n : Nat) (e : Term) (matrix : Dict2) (vector : Dict1) :
    solveAux (n + 1) [e] matrix vector = (do
      let aee ← dlookup2 matrix e e
      let be ← dlookup1 vector e
      pure [(e, Term.pow (Term.star aee) be)]) := by
  rw [solveAux]
  rfl

theorem solveAux_cons (n : Nat) (e : Term) (rest : List Term) (matrix : Dict2)
    (vector : Dict1) (hfilter : (rest.filter fun v => !(Term.beq v e)) = rest)
    (hne : rest ≠ []) :
    solveAux (n + 1) (e :: rest) matrix vector = (do
      let subvector ← reducedVector matrix vector e rest
      let submatrix ← reducedMatrix matrix e rest
      let sol ← solveAux n rest submatrix subvector
      let be ← dlookup1 vector e
      let xe ← backSubstitute matrix sol e rest be
      pure (sol ++ [(e, xe)])) := by
  rw [solveAux]
  simp only [hfilter]
  rw [if_neg]
  intro hc
  exact hne (List.isEmpty_iff.mp hc)

theorem solveAux_single_eq (n : Nat) {e : Term} {matrix : Dict2} {vector : Dict1}
    {aee be : Term}
    (h1 : dlookup2 matrix e e = some aee)
    (h2 : dlookup1 vector e = some be) :
    solveAux (n + 1) [e] matrix vector = some [(e, Term.pow (Term.star aee) be)] := by
  rw [solveAux_single n e matrix vector, h1]
  show (do
    let b ← dlookup1 vector e
    pure [(e, Term.pow (Term.star aee) b)]) = _
  rw [h2]
  rfl

theorem solveAux_cons_eq {n : Nat} {e : Term} {rest : List Term} {matrix : Dict2}
    {vector : Dict1} {subv : Dict1} {subm : Dict2} {subsol : Dict1} {be xe : Term}
    (hfilter : (rest.filter fun v => !(Term.beq v e)) = rest)
    (hne : rest ≠ [])
    (h1 : reducedVector matrix vector e rest = some subv)
    (h2 : reducedMatrix matrix e rest = some subm)
    (h3 : solveAux n rest subm subv = some subsol)
    (h4 : dlookup1 vector e = some be)
    (h5 : backSubstitute matrix subsol e rest be = some xe) :
    solveAux (n + 1) (e :: rest) matrix vector = some (subsol ++ [(e, xe)]) := by
  rw [solveAux_cons n e rest matrix vector hfilter hne, h1, h2]
  show (do
    let sol ← solveAux n rest subm subv
    let b ← dlookup1 vector e
    let x ← backSubstitute matrix sol e rest b
    pure (sol ++ [(e, x)])) = _
  rw [h3]
  show (do
    let b ← dlookup1 vector e
    let x ← backSubstitute matrix subsol e rest b
    pure (subsol ++ [(e, x)])) = _
  rw [h4]
  show (do
    let x ← backSubstitute matrix subsol e rest be
    pure (subsol ++ [(e, x)])) = _
  rw [h5]
  rfl

theorem solve_spec_aux :
    ∀ (n : Nat) (symbols : List Term) (matrix : Dict2) (vector : Dict1),
      symbols.length = n →
      symbols ≠ [] →
      StrNodup symbols →
      (∀ s1 ∈ symbols, ∀ s2 ∈ symbols, (dlookup2 matrix s1 s2).isSome = true) →
      (∀ s ∈ symbols, (dlookup1 vector s).isSome = true) →
      ∃ sol, solveL symbols matrix vector = some sol ∧
        (∀ s ∈ symbols, (dlookup1 sol s).isSome = true) ∧
        ∀ e rest, symbols = e :: rest →
          (rest = [] →
            sol = [(e, Term.pow (Term.star (dget2 matrix e e)) (dget1 vector e))]) ∧
          (rest ≠ [] → ∃ subm subv subsol,
            reducedMatrix matrix e rest = some subm ∧
            (∀ v1 ∈ rest, ∀ v2 ∈ rest, dlookup2 subm v1 v2 = some (Term.add
              (Term.pow (dget2 matrix v1 e)
                (Term.pow (Term.star (dget2 matrix e e)) (dget2 matrix e v2)))
              (dget2 matrix v1 v2))) ∧
            reducedVector matrix vector e rest = some subv ∧
            (∀ v ∈ rest, dlookup1 subv v = some (Term.add (dget1 vector v)
              (Term.pow (dget2 matrix v e) (dget1 vector e)))) ∧
            solveL rest subm subv = some subsol ∧
            (∀ v ∈ rest, dlookup1 sol v = dlookup1 subsol v) ∧
            dlookup1 sol e = some (Term.pow (Term.star (dget2 matrix e e))
              (rest.foldl (fun acc v => Term.add acc
                (Term.pow (dget2 matrix e v) (dget1 subsol v))) (dget1 vector e)))) := by
  intro n
  induction n with
  | zero =>
      intro symbols matrix vector hlen hne _ _ _
      cases symbols with
      | nil => exact absurd rfl hne
      | cons e rest => exact absurd hlen (Nat.succ_ne_zero _)
  | succ n ih =>
      intro symbols matrix vector hlen hne hnd hm hv
      cases symbols with
      | nil => exact absurd rfl hne
      | cons e rest =>
          obtain ⟨hkrest, hndrest⟩ := strNodup_cons hnd
          have heme : e ∈ e :: rest := List.mem_cons_self _ _
          have hmemr : ∀ v ∈ rest, v ∈ e :: rest :=
            fun v hvr => List.mem_cons_of_mem _ hvr
          have hee : (dlookup2 matrix e e).isSome = true := hm e heme e heme
          have hbe : (dlookup1 vector e).isSome = true := hv e heme
          by_cases hrest : rest = []
          · subst hrest
            refine ⟨[(e, Term.pow (Term.star (dget2 matrix e e)) (dget1 vector e))],
              ?_, ?_, ?_⟩
            · have h0 : solveAux (0 + 1) [e] matrix vector =
                  some [(e, Term.pow (Term.star (dget2 matrix e e)) (dget1 vector e))] :=
                solveAux_single_eq 0 (opt_eq_some_getD hee) (opt_eq_some_getD hbe)
              exact h0
            · intro s hs
              rw [List.mem_singleton] at hs
              subst hs
              simp [dlookup1, List.find?_cons, Term.beq_refl]
            · intro e' rest' heq
              injection heq with he1 he2
              subst he1
              subst he2
              exact ⟨fun _ => rfl, fun hc => absurd rfl hc⟩
          · have hlen2 : rest.length + 1 = n + 1 := hlen
            have hlrest : rest.length = n := Nat.succ_injective hlen2
            have hgv : ∀ v ∈ rest, reducedVectorEntry matrix vector e v =
                some (Term.add (dget1 vector v)
                  (Term.pow (dget2 matrix v e) (dget1 vector e))) := by
              intro v hvr
              exact reducedVectorEntry_eq (hv v (hmemr v hvr))
                (hm v (hmemr v hvr) e heme) hbe
            obtain ⟨subv, hsubv⟩ := mapM_dict1_success (reducedVectorEntry matrix vector e)
              rest (fun v hvr => by rw [hgv v hvr]; rfl)
            have hsubv2 : reducedVector matrix vector e rest = some subv := hsubv
            have hsubveq : ∀ v ∈ rest, dlookup1 subv v = some (Term.add (dget1 vector v)
                (Term.pow (dget2 matrix v e) (dget1 vector e))) := by
              intro v hvr
              rw [(mapM_dict1 (reducedVectorEntry matrix vector e) rest subv hsubv).2
                hndrest v hvr, hgv v hvr]
            have hgm : ∀ v1 ∈ rest, ∀ v2 ∈ rest, reducedMatrixEntry matrix e v1 v2 =
                some (Term.add (Term.pow (dget2 matrix v1 e)
                  (Term.pow (Term.star (dget2 matrix e e)) (dget2 matrix e v2)))
                  (dget2 matrix v1 v2)) := by
              intro v1 h1 v2 h2
              exact reducedMatrixEntry_eq (hm v1 (hmemr v1 h1) e heme) hee
                (hm e heme v2 (hmemr v2 h2)) (hm v1 (hmemr v1 h1) v2 (hmemr v2 h2))
            obtain ⟨rows, hrows⟩ := mapM_dictRows_success (reducedMatrixEntry matrix e)
              rest rest (fun v1 h1 v2 h2 => by rw [hgm v1 h1 v2 h2]; rfl)
            have hsubm2 : reducedMatrix matrix e rest = some rows.flatten := by
              unfold reducedMatrix
              rw [hrows]
              rfl
            have hsubmeq : ∀ v1 ∈ rest, ∀ v2 ∈ rest, dlookup2 rows.flatten v1 v2 =
                some (Term.add (Term.pow (dget2 matrix v1 e)
                  (Term.pow (Term.star (dget2 matrix e e)) (dget2 matrix e v2)))
                  (dget2 matrix v1 v2)) := by
              intro v1 h1 v2 h2
              rw [(mapM_dictRows (reducedMatrixEntry matrix e) rest rest rows hrows).2
                hndrest hndrest v1 h1 v2 h2, hgm v1 h1 v2 h2]
            obtain ⟨subsol, hsubsol, hsubsoltot, _⟩ := ih rest rows.flatten subv hlrest
              hrest hndrest
              (fun s1 h1 s2 h2 => by rw [hsubmeq s1 h1 s2 h2]; rfl)
              (fun s hs => by rw [hsubveq s hs]; rfl)
            have hsub2 : solveAux n rest rows.flatten subv = some subsol := by
              have h0 : solveAux rest.length rest rows.flatten subv = some subsol :=
                hsubsol
              rw [hlrest] at h0
              exact h0
            have hback := backSubstitute_eq rest (dget1 vector e)
              (fun v hvr => hm e heme v (hmemr v hvr))
              (fun v hvr => hsubsoltot v hvr) hee
            obtain ⟨xe, hxe, hxedef⟩ : ∃ xe, backSubstitute matrix subsol e rest
                (dget1 vector e) = some xe ∧
                xe = Term.pow (Term.star (dget2 matrix e e))
                  (rest.foldl (fun acc v => Term.add acc
                    (Term.pow (dget2 matrix e v) (dget1 subsol v))) (dget1 vector e)) :=
              ⟨_, hback, rfl⟩
            have hmain := solveAux_cons_eq (filter_ne_pivot hkrest) hrest hsubv2 hsubm2
              hsub2 (opt_eq_some_getD hbe) hxe
            have hesub : dlookup1 subsol e = none := by
              refine dlookup1_none_of_keys ?_
              intro kv hkv
              have h8 := solveAux_keys n rest rows.flatten subv subsol hsub2 kv hkv
              obtain ⟨w, hw, hbw⟩ := tmem_exists h8
              cases hc : Term.beq kv.1 e with
              | false => rfl
              | true =>
                  have h9 : Term.beq e w = true := Term.beq_trans (Term.beq_symm hc) hbw
                  rw [hkrest w hw] at h9
                  cases h9
            have hlookrest : ∀ v ∈ rest,
                dlookup1 (subsol ++ [(e, xe)]) v = dlookup1 subsol v := by
              intro v hvr
              rw [dlookup1_append, opt_eq_some_getD (hsubsoltot v hvr)]
              rfl
            have hlooke : dlookup1 (subsol ++ [(e, xe)]) e = some xe := by
              rw [dlookup1_append, hesub]
              simp [dlookup1, List.find?_cons, Term.beq_refl]
            have hsolveL : solveL (e :: rest) matrix vector =
                some (subsol ++ [(e, xe)]) := by
              have h0 : solveAux (rest.length + 1) (e :: rest) matrix vector =
                  some (subsol ++ [(e, xe)]) := by
                rw [hlrest]
                exact hmain
              exact h0
            refine ⟨subsol ++ [(e, xe)], hsolveL, ?_, ?_⟩
            · intro s hs
              rcases List.mem_cons.mp hs with h4 | h4
              · subst h4
                rw [hlooke]
                rfl
              · rw [hlookrest s h4]
                exact hsubsoltot s h4
            · intro e' rest' heq
              injection heq with he1 he2
              subst he1
              subst he2
              refine ⟨fun hc => absurd hc hrest, fun _ => ?_⟩
              refine ⟨rows.flatten, subv, subsol, hsubm2, hsubmeq, hsubv2, hsubveq,
                hsubsol, hlookrest, ?_⟩
              rw [hlooke, hxedef]

/-- C1: `LinearSystem.solve` performs variable elimination exactly as
specified.  For every non-empty duplicate-free symbol list with a total
matrix and a total vector, `solve` succeeds and the solution is defined on
every symbol; with pivot `e` and remaining symbols `rest`, in the base case
the solution is `{e ↦ A(e,e)* · b(e)}`, and otherwise `solve` forms the
reduced system with entries `b'(v) = b(v) + A(v,e)·b(e)` and `A'(v1,v2) =
A(v1,e)·(A(e,e)*·A(e,v2)) + A(v1,v2)`, solves it recursively, agrees with
the subsolution on `rest`, and back-substitutes `X(e) = A(e,e)* · (b(e) +
Σ_{v ∈ rest} A(e,v)·X(v))`. -/
theorem solve_spec (symbols : List Term) (matrix : Dict2) (vector : Dict1)
    (hne : symbols ≠ []) (hnd : StrNodup symbols)
    (hm : ∀ s1 ∈ symbols, ∀ s2 ∈ symbols, (dlookup2 matrix s1 s2).isSome = true)
    (hv : ∀ s ∈ symbols, (dlookup1 vector s).isSome = true) :
    ∃ sol, solveL symbols matrix vector = some sol ∧
      (∀ s ∈ symbols, (dlookup1 sol s).isSome = true) ∧
      ∀ e rest, symbols = e :: rest →
        (rest = [] →
          sol = [(e, Term.pow (Term.star (dget2 matrix e e)) (dget1 vector e))]) ∧
        (rest ≠ [] → ∃ subm subv subsol,
          reducedMatrix matrix e rest = some subm ∧
          (∀ v1 ∈ rest, ∀ v2 ∈ rest, dlookup2 subm v1 v2 = some (Term.add
            (Term.pow (dget2 matrix v1 e)
              (Term.pow (Term.star (dget2 matrix e e)) (dget2 matrix e v2)))
            (dget2 matrix v1 v2))) ∧
          reducedVector matrix vector e rest = some subv ∧
          (∀ v ∈ rest, dlookup1 subv v = some (Term.add (dget1 vector v)
            (Term.pow (dget2 matrix v e) (dget1 vector e)))) ∧
          solveL rest subm subv = some subsol ∧
          (∀ v ∈ rest, dlookup1 sol v = dlookup1 subsol v) ∧
          dlookup1 sol e = some (Term.pow (Term.star (dget2 matrix e e))
            (rest.foldl (fun acc v => Term.add acc
              (Term.pow (dget2 matrix e v) (dget1 subsol v))) (dget1 vector e)))) :=
  solve_spec_aux symbols.length symbols matrix vector rfl hne hnd hm hv

/-- Witness: the solver specification instantiated at a concrete
two-symbol linear system with primitive entries. -/
theorem solve_spec_witness :
    ∃ sol, solveL exSymbols exMatrix exVector = some sol ∧
      (∀ s ∈ exSymbols, (dlookup1 sol s).isSome = true) ∧
      ∀ e rest, exSymbols = e :: rest →
        (rest = [] →
          sol = [(e, Term.pow (Term.star (dget2 exMatrix e e)) (dget1 exVector e))]) ∧
        (rest ≠ [] → ∃ subm subv subsol,
          reducedMatrix exMatrix e rest = some subm ∧
          (∀ v1 ∈ rest, ∀ v2 ∈ rest, dlookup2 subm v1 v2 = some (Term.add
            (Term.pow (dget2 exMatrix v1 e)
              (Term.pow (Term.star (dget2 exMatrix e e)) (dget2 exMatrix e v2)))
            (dget2 exMatrix v1 v2))) ∧
          reducedVector exMatrix exVector e rest = some subv ∧
          (∀ v ∈ rest, dlookup1 subv v = some (Term.add (dget1 exVector v)
            (Term.pow (dget2 exMatrix v e) (dget1 exVector e)))) ∧
          solveL rest subm subv = some subsol ∧
          (∀ v ∈ rest, dlookup1 sol v = dlookup1 subsol v) ∧
          dlookup1 sol e = some (Term.pow (Term.star (dget2 exMatrix e e))
            (rest.foldl (fun acc v => Term.add acc
              (Term.pow (dget2 exMatrix e v) (dget1 subsol v))) (dget1 exVector e)))) :=
  solve_spec exSymbols exMatrix exVector (by decide)
    (List.pairwise_cons.mpr ⟨by decide,
      List.pairwise_cons.mpr ⟨by decide, List.Pairwise.nil⟩⟩)
    (by decide) (by decide)

/-! Properties of the preclosure of a parallel composition. -/

theorem widthKeep_spec (w : Nat) :
    ∀ (ps kept : List (Term × Term)),
      Term.widthKeep w ps = some kept →
      kept = ps.filter (fun gh => decide (gh.1.widthQ.getD 0 < w) &&
        decide (gh.2.widthQ.getD 0 < w)) ∧
      ∀ gh ∈ kept, ∃ wg wh, gh.1.widthQ = some wg ∧ gh.2.widthQ = some wh ∧
        wg < w ∧ wh < w := by
  intro ps
  induction ps with
  | nil =>
      intro kept h
      cases h
      exact ⟨rfl, fun gh hgh => absurd hgh (List.not_mem_nil gh)⟩
  | cons gh rest ih =>
      intro kept h
      rw [Term.widthKeep] at h
      obtain ⟨wg, hwg, h2⟩ := Option.bind_eq_some.mp h
      by_cases hlt : wg < w
      · rw [if_pos hlt] at h2
        obtain ⟨wh, hwh, h3⟩ := Option.bind_eq_some.mp h2
        obtain ⟨tl, htl, h4⟩ := Option.bind_eq_some.mp h3
        obtain ⟨hfil, hmem⟩ := ih tl htl
        injection h4 with h4
        subst h4
        by_cases hltw : wh < w
        · rw [if_pos hltw]
          constructor
          · rw [List.filter_cons]
            simp [hwg, hwh, hlt, hltw, ← hfil]
          · intro p hp
            rcases List.mem_cons.mp hp with h6 | h6
            · subst h6
              exact ⟨wg, wh, hwg, hwh, hlt, hltw⟩
            · exact hmem p h6
        · rw [if_neg hltw]
          constructor
          · rw [List.filter_cons]
            simp [hwg, hwh, hlt, hltw, ← hfil]
          · exact hmem
      · rw [if_neg hlt] at h2
        obtain ⟨hfil, hmem⟩ := ih kept h2
        refine ⟨?_, hmem⟩
        rw [List.filter_cons]
        simp [hwg, hlt, ← hfil]

theorem closurePairs_spec (c : Term → Option Term) :
    ∀ (kept : List (Term × Term)) (summands : List Term),
      Term.closurePairs c kept = some summands →
      summands = kept.map (fun gh => Term.floordiv ((c gh.1).getD Term.Zero)
        ((c gh.2).getD Term.Zero)) := by
  intro kept
  induction kept with
  | nil =>
      intro s h
      cases h
      rfl
  | cons gh rest ih =>
      intro s h
      rw [Term.closurePairs] at h
      obtain ⟨cg, hcg, h2⟩ := Option.bind_eq_some.mp h
      obtain ⟨ch, hch, h3⟩ := Option.bind_eq_some.mp h2
      obtain ⟨tl, htl, h4⟩ := Option.bind_eq_some.mp h3
      cases h4
      rw [List.map_cons, ← ih tl htl, hcg, hch]
      rfl

/-- C2: `Parallel.preclosure` computes the choice-sum, started at the
normalized `l ‖ r`, of `closure(g) ‖ closure(h)` over exactly those pairs
`(g, h)` of the parallel splicings of `Parallel(l, r)` whose two widths are
both strictly below the width of `Parallel(l, r)`; in particular every
recursive closure call made from `preclosure` is on a component of strictly
smaller width. -/
theorem preclosure_spec (c : Term → Option Term) (l r : Term) (w : Nat)
    (kept : List (Term × Term)) (summands : List Term)
    (hw : (Term.Parallel l r).widthQ = some w)
    (hk : Term.widthKeep w (Term.Parallel l r).psplicings = some kept)
    (hc : Term.closurePairs c kept = some summands) :
    Term.preclosureW c l r = some (pySum summands (Term.floordiv l r)) ∧
    summands = kept.map (fun gh => Term.floordiv ((c gh.1).getD Term.Zero)
      ((c gh.2).getD Term.Zero)) ∧
    kept = (Term.Parallel l r).psplicings.filter
      (fun gh => decide (gh.1.widthQ.getD 0 < w) &&
        decide (gh.2.widthQ.getD 0 < w)) ∧
    ∀ gh ∈ kept, ∃ wg wh, gh.1.widthQ = some wg ∧ gh.2.widthQ = some wh ∧
      wg < w ∧ wh < w := by
  obtain ⟨hfil, hmem⟩ := widthKeep_spec w (Term.Parallel l r).psplicings kept hk
  refine ⟨?_, closurePairs_spec c kept summands hc, hfil, hmem⟩
  unfold Term.preclosureW
  rw [hw]
  show (do
    let kept2 ← Term.widthKeep w (Term.Parallel l r).psplicings
    let summands2 ← Term.closurePairs c kept2
    pure (pySum summands2 (Term.floordiv l r))) = _
  rw [hk]
  show (do
    let summands2 ← Term.closurePairs c kept
    pure (pySum summands2 (Term.floordiv l r))) = _
  rw [hc]
  rfl

/-- Witness: the preclosure specification instantiated at
`Parallel(Primitive "x", Primitive "y")`, whose width is 2 and whose kept
splicing pairs are `(x, y)` and `(y, x)`. -/
theorem preclosure_spec_witness :
    Term.preclosureW (Term.closureF 1) (Term.Primitive "x") (Term.Primitive "y") =
      some (pySum [Term.Parallel (Term.Primitive "x") (Term.Primitive "y"),
          Term.Parallel (Term.Primitive "y") (Term.Primitive "x")]
        (Term.floordiv (Term.Primitive "x") (Term.Primitive "y"))) ∧
    [Term.Parallel (Term.Primitive "x") (Term.Primitive "y"),
        Term.Parallel (Term.Primitive "y") (Term.Primitive "x")] =
      ([(Term.Primitive "x", Term.Primitive "y"),
        (Term.Primitive "y", Term.Primitive "x")]).map
        (fun gh => Term.floordiv ((Term.closureF 1 gh.1).getD Term.Zero)
          ((Term.closureF 1 gh.2).getD Term.Zero)) ∧
    [(Term.Primitive "x", Term.Primitive "y"),
        (Term.Primitive "y", Term.Primitive "x")] =
      (Term.Parallel (Term.Primitive "x") (Term.Primitive "y")).psplicings.filter
        (fun gh => decide (gh.1.widthQ.getD 0 < 2) &&
          decide (gh.2.widthQ.getD 0 < 2)) ∧
    ∀ gh ∈ [(Term.Primitive "x", Term.Primitive "y"),
        (Term.Primitive "y", Term.Primitive "x")],
      ∃ wg wh, gh.1.widthQ = some wg ∧ gh.2.widthQ = some wh ∧
        wg < 2 ∧ wh < 2 :=
  preclosure_spec (Term.closureF 1) (Term.Primitive "x") (Term.Primitive "y") 2
    [(Term.Primitive "x", Term.Primitive "y"),
     (Term.Primitive "y", Term.Primitive "x")]
    [Term.Parallel (Term.Primitive "x") (Term.Primitive "y"),
     Term.Parallel (Term.Primitive "y") (Term.Primitive "x")]
    (by decide) (by decide) (by decide)

/-! Monotonicity of the fuelled closure, and interaction of `closure`
with the smart constructors. -/

theorem star_idempotent (x : Term) : Term.star (Term.star x) = Term.star x := by
  cases x <;> rfl

theorem closurePairs_mono {c c' : Term → Option Term} (h : Cle c c') :
    ∀ (ps : List (Term × Term)) (out : List Term),
      Term.closurePairs c ps = some out → Term.closurePairs c' ps = some out := by
  intro ps
  induction ps with
  | nil => intro out h2; exact h2
  | cons gh rest ih =>
      intro out h2
      rw [Term.closurePairs] at h2 ⊢
      obtain ⟨cg, hcg, h3⟩ := Option.bind_eq_some.mp h2
      obtain ⟨ch, hch, h4⟩ := Option.bind_eq_some.mp h3
      obtain ⟨tl, htl, h5⟩ := Option.bind_eq_some.mp h4
      rw [h gh.1 cg hcg, h gh.2 ch hch, ih tl htl]
      exact h5

theorem preclosureW_mono {c c' : Term → Option Term} (h : Cle c c') (l r : Term)
    (out : Term) (h2 : Term.preclosureW c l r = some out) :
    Term.preclosureW c' l r = some out := by
  unfold Term.preclosureW at h2 ⊢
  obtain ⟨w, hw, h3⟩ := Option.bind_eq_some.mp h2
  obtain ⟨kept, hk, h4⟩ := Option.bind_eq_some.mp h3
  obtain ⟨summands, hs, h5⟩ := Option.bind_eq_some.mp h4
  rw [hw]
  show (do
    let kept2 ← Term.widthKeep w (Term.Parallel l r).psplicings
    let summands2 ← Term.closurePairs c' kept2
    pure (pySum summands2 (Term.floordiv l r))) = some out
  rw [hk]
  show (do
    let summands2 ← Term.closurePairs c' kept
    pure (pySum summands2 (Term.floordiv l r))) = some out
  rw [closurePairs_mono h kept summands hs]
  exact h5

theorem matrixSummands_mono {c c' : Term → Option Term} (h : Cle c c') (s2 : Term) :
    ∀ (ps : List ((Term × Term) × (Term × Term))) (out : List Term),
      Term.matrixSummands c s2 ps = some out →
      Term.matrixSummands c' s2 ps = some out := by
  intro ps
  induction ps with
  | nil => intro out h2; exact h2
  | cons pp rest ih =>
      intro out h2
      rw [Term.matrixSummands] at h2 ⊢
      by_cases hb : Term.beq (Term.Parallel pp.1.2 pp.2.2) s2 = true
      · rw [if_pos hb] at h2 ⊢
        obtain ⟨x, hx, h3⟩ := Option.bind_eq_some.mp h2
        obtain ⟨tl, htl, h4⟩ := Option.bind_eq_some.mp h3
        rw [preclosureW_mono h pp.1.1 pp.2.1 x hx, ih tl htl]
        exact h4
      · rw [if_neg hb] at h2 ⊢
        exact ih out h2

theorem matrixEntryW_mono {c c' : Term → Option Term} (h : Cle c c') (s1 s2 : Term)
    (out : Term) (h2 : Term.matrixEntryW c s1 s2 = some out) :
    Term.matrixEntryW c' s1 s2 = some out := by
  unfold Term.matrixEntryW at h2 ⊢
  obtain ⟨summands, hs, h3⟩ := Option.bind_eq_some.mp h2
  show (do
    let summands2 ← Term.matrixSummands c' s2
      ((Term.parLeft s1).ssplicings.flatMap fun p1 =>
        (Term.parRight s1).ssplicings.map fun p2 => (p1, p2))
    pure (pySum summands2 Term.Zero)) = some out
  rw [matrixSummands_mono h s2 _ summands hs]
  exact h3

theorem matrixRowW_mono {c c' : Term → Option Term} (h : Cle c c') (s1 : Term) :
    ∀ (ks : List Term) (out : Dict2),
      Term.matrixRowW c s1 ks = some out → Term.matrixRowW c' s1 ks = some out := by
  intro ks
  induction ks with
  | nil => intro out h2; exact h2
  | cons s2 rest ih =>
      intro out h2
      rw [Term.matrixRowW] at h2 ⊢
      obtain ⟨x, hx, h3⟩ := Option.bind_eq_some.mp h2
      obtain ⟨tl, htl, h4⟩ := Option.bind_eq_some.mp h3
      rw [matrixEntryW_mono h s1 s2 x hx, ih tl htl]
      exact h4

theorem linearMatrixW_mono {c c' : Term → Option Term} (h : Cle c c')
    (symbols : List Term) :
    ∀ (ks : List Term) (out : Dict2),
      Term.linearMatrixW c symbols ks = some out →
      Term.linearMatrixW c' symbols ks = some out := by
  intro ks
  induction ks with
  | nil => intro out h2; exact h2
  | cons s1 rest ih =>
      intro out h2
      rw [Term.linearMatrixW] at h2 ⊢
      obtain ⟨row, hrow, h3⟩ := Option.bind_eq_some.mp h2
      obtain ⟨tl, htl, h4⟩ := Option.bind_eq_some.mp h3
      rw [matrixRowW_mono h s1 symbols row hrow, ih tl htl]
      exact h4

theorem linearSolutionW_mono {c c' : Term → Option Term} (h : Cle c c') (l r : Term)
    (out : Dict1) (h2 : Term.linearSolutionW c l r = some out) :
    Term.linearSolutionW c' l r = some out := by
  unfold Term.linearSolutionW at h2 ⊢
  obtain ⟨rl, hrl, h3⟩ := Option.bind_eq_some.mp h2
  obtain ⟨rr, hrr, h4⟩ := Option.bind_eq_some.mp h3
  obtain ⟨m, hme, h5⟩ := Option.bind_eq_some.mp h4
  rw [hrl]
  show (do
    let rr2 ← Term.remainders r
    let m2 ← Term.linearMatrixW c'
      (tdedup (rl.flatMap fun lp => rr2.map fun rp => Term.Parallel lp rp))
      (tdedup (rl.flatMap fun lp => rr2.map fun rp => Term.Parallel lp rp))
    solveL (tdedup (rl.flatMap fun lp => rr2.map fun rp => Term.Parallel lp rp)) m2
      (Term.linearVector
        (tdedup (rl.flatMap fun lp => rr2.map fun rp => Term.Parallel lp rp)))) = some out
  rw [hrr]
  show (do
    let m2 ← Term.linearMatrixW c'
      (tdedup (rl.flatMap fun lp => rr.map fun rp => Term.Parallel lp rp))
      (tdedup (rl.flatMap fun lp => rr.map fun rp => Term.Parallel lp rp))
    solveL (tdedup (rl.flatMap fun lp => rr.map fun rp => Term.Parallel lp rp)) m2
      (Term.linearVector
        (tdedup (rl.flatMap fun lp => rr.map fun rp => Term.Parallel lp rp)))) = some out
  rw [linearMatrixW_mono h _ _ m hme]
  exact h5

theorem closureF_mono : ∀ (n : Nat), Cle (Term.closureF n) (Term.closureF (n + 1)) := by
  intro n
  induction n with
  | zero => intro t u h; cases h
  | succ n ih =>
      intro t u h
      cases t with
      | Zero => exact h
      | One => exact h
      | Primitive s => exact h
      | Choice l r =>
          obtain ⟨cl, hcl, h2⟩ := Option.bind_eq_some.mp h
          obtain ⟨cr, hcr, h3⟩ := Option.bind_eq_some.mp h2
          show (do pure (Term.add (← Term.closureF (n + 1) l)
            (← Term.closureF (n + 1) r))) = some u
          rw [ih l cl hcl, ih r cr hcr]
          exact h3
      | Sequential l r =>
          obtain ⟨cl, hcl, h2⟩ := Option.bind_eq_some.mp h
          obtain ⟨cr, hcr, h3⟩ := Option.bind_eq_some.mp h2
          show (do pure (Term.pow (← Term.closureF (n + 1) l)
            (← Term.closureF (n + 1) r))) = some u
          rw [ih l cl hcl, ih r cr hcr]
          exact h3
      | Star b =>
          obtain ⟨cbv, hcb, h2⟩ := Option.bind_eq_some.mp h
          show (do pure (Term.star (← Term.closureF (n + 1) b))) = some u
          rw [ih b cbv hcb]
          exact h2
      | Parallel l r =>
          obtain ⟨sol, hsol, h2⟩ := Option.bind_eq_some.mp h
          show (do
            let sol2 ← Term.linearSolutionW (Term.closureF (n + 1)) l r
            dlookup1 sol2 (Term.Parallel l r)) = some u
          rw [linearSolutionW_mono ih l r sol hsol]
          exact h2

theorem closureF_le_mono (n m : Nat) (h : n ≤ m) :
    Cle (Term.closureF n) (Term.closureF m) := by
  induction h with
  | refl => intro t u h2; exact h2
  | step h2 ih => intro t u h3; exact closureF_mono _ t u (ih t u h3)

theorem Closure_one {u : Term} (h : Closure Term.One u) : u = Term.One := by
  obtain ⟨n, hn⟩ := h
  cases n with
  | zero => cases hn
  | succ n => exact (Option.some.inj hn).symm

theorem Closure_zero {u : Term} (h : Closure Term.Zero u) : u = Term.Zero := by
  obtain ⟨n, hn⟩ := h
  cases n with
  | zero => cases hn
  | succ n => exact (Option.some.inj hn).symm

theorem Closure_star_shape {b u : Term} (h : Closure (Term.Star b) u) :
    ∃ cb, u = Term.star cb := by
  obtain ⟨n, hn⟩ := h
  cases n with
  | zero => cases hn
  | succ n =>
      obtain ⟨cbv, hcb, h2⟩ := Option.bind_eq_some.mp hn
      exact ⟨cbv, (Option.some.inj h2).symm⟩

/-- C8 (amended): `closure` commutes with the sequential and star smart
constructors unconditionally: if `closure(a)` computes `ca` and
`closure(b)` computes `cb`, then `closure(a ** b)` computes `ca ** cb` and
`closure(a.star())` computes `ca.star()`.  For choice, the commutation
`closure(a + b) = closure(a) + closure(b)` holds whenever the smart sum
actually builds `Choice(a, b)`; when the containment absorption of
`__add__` fires it can fail (see the counterexample). -/
theorem closure_smart_constructors (a b ca cb : Term)
    (ha : Closure a ca) (hb : Closure b cb) :
    Closure (Term.pow a b) (Term.pow ca cb) ∧
    Closure (Term.star a) (Term.star ca) ∧
    (Term.add a b = Term.Choice a b → Closure (Term.add a b) (Term.add ca cb)) := by
  obtain ⟨n, hn⟩ := ha
  obtain ⟨m, hm⟩ := hb
  have hNa : Term.closureF (max n m) a = some ca :=
    closureF_le_mono n (max n m) (Nat.le_max_left n m) a ca hn
  have hNb : Term.closureF (max n m) b = some cb :=
    closureF_le_mono m (max n m) (Nat.le_max_right n m) b cb hm
  refine ⟨?_, ?_, ?_⟩
  · by_cases hb1 : b = Term.One
    · subst hb1
      have hcb : cb = Term.One := Closure_one ⟨m, hm⟩
      subst hcb
      rw [Term.pow_one, Term.pow_one]
      exact ⟨n, hn⟩
    · by_cases ha1 : a = Term.One
      · subst ha1
        have hca : ca = Term.One := Closure_one ⟨n, hn⟩
        subst hca
        rw [Term.one_pow, Term.one_pow]
        exact ⟨m, hm⟩
      · by_cases hbz : b = Term.Zero
        · subst hbz
          have hcb : cb = Term.Zero := Closure_zero ⟨m, hm⟩
          subst hcb
          rw [Term.pow_zero_right, Term.pow_zero_right]
          exact ⟨1, rfl⟩
        · by_cases haz : a = Term.Zero
          · subst haz
            have hca : ca = Term.Zero := Closure_zero ⟨n, hn⟩
            subst hca
            rw [Term.zero_pow, Term.zero_pow]
            exact ⟨1, rfl⟩
          · rw [Term.pow_ne (Term.isOne_false ha1) (Term.isOne_false hb1)
              (Term.isZero_false haz) (Term.isZero_false hbz)]
            refine ⟨max n m + 1, ?_⟩
            show (do pure (Term.pow (← Term.closureF (max n m) a)
              (← Term.closureF (max n m) b))) = some (Term.pow ca cb)
            rw [hNa, hNb]
            rfl
  · by_cases ha1 : a = Term.One
    · subst ha1
      have hca : ca = Term.One := Closure_one ⟨n, hn⟩
      subst hca
      exact ⟨1, rfl⟩
    · by_cases haz : a = Term.Zero
      · subst haz
        have hca : ca = Term.Zero := Closure_zero ⟨n, hn⟩
        subst hca
        exact ⟨1, rfl⟩
      · cases hast : a.isStar with
        | true =>
            cases a with
            | Star b2 =>
                obtain ⟨cb2, hshape⟩ := Closure_star_shape ⟨n, hn⟩
                subst hshape
                rw [star_idempotent]
                exact ⟨n, hn⟩
            | Zero => simp [Term.isStar] at hast
            | One => simp [Term.isStar] at hast
            | Primitive s => simp [Term.isStar] at hast
            | Choice l r => simp [Term.isStar] at hast
            | Sequential l r => simp [Term.isStar] at hast
            | Parallel l r => simp [Term.isStar] at hast
        | false =>
            rw [Term.star_ne ha1 haz hast]
            refine ⟨max n m + 1, ?_⟩
            show (do pure (Term.star (← Term.closureF (max n m) a))) =
              some (Term.star ca)
            rw [hNa]
            rfl
  · intro hadd
    rw [hadd]
    refine ⟨max n m + 1, ?_⟩
    show (do pure (Term.add (← Term.closureF (max n m) a)
      (← Term.closureF (max n m) b))) = some (Term.add ca cb)
    rw [hNa, hNb]
    rfl

/-- Witness: the commutation statement instantiated at the primitives
`x` and `y`, whose closures are themselves. -/
theorem closure_smart_constructors_witness :
    Closure (Term.pow (Term.Primitive "x") (Term.Primitive "y"))
      (Term.pow (Term.Primitive "x") (Term.Primitive "y")) ∧
    Closure (Term.star (Term.Primitive "x")) (Term.star (Term.Primitive "x")) ∧
    (Term.add (Term.Primitive "x") (Term.Primitive "y") =
        Term.Choice (Term.Primitive "x") (Term.Primitive "y") →
      Closure (Term.add (Term.Primitive "x") (Term.Primitive "y"))
        (Term.add (Term.Primitive "x") (Term.Primitive "y"))) :=
  closure_smart_constructors (Term.Primitive "x") (Term.Primitive "y")
    (Term.Primitive "x") (Term.Primitive "y") ⟨1, rfl⟩ ⟨1, rfl⟩

/-- Counterexample to the unrestricted choice commutation: for
`a = x ‖ y` and `b = y ‖ x` the smart sum absorbs `b` into `a`
(`a + b = a`), so `closure(a + b) = closure(a)`, while
`closure(a) + closure(b)` is a genuine choice of the two closures and
prints differently.  All three closure computations succeed. -/
theorem closure_choice_counterexample :
    (Term.closureF 12 (Term.add
      (Term.floordiv (Term.Primitive "x") (Term.Primitive "y"))
      (Term.floordiv (Term.Primitive "y") (Term.Primitive "x")))).isSome = true ∧
    (Term.closureF 12
      (Term.floordiv (Term.Primitive "x") (Term.Primitive "y"))).isSome = true ∧
    (Term.closureF 12
      (Term.floordiv (Term.Primitive "y") (Term.Primitive "x"))).isSome = true ∧
    Term.beq
      ((Term.closureF 12 (Term.add
        (Term.floordiv (Term.Primitive "x") (Term.Primitive "y"))
        (Term.floordiv (Term.Primitive "y") (Term.Primitive "x")))).getD Term.Zero)
      (Term.add
        ((Term.closureF 12
          (Term.floordiv (Term.Primitive "x") (Term.Primitive "y"))).getD Term.Zero)
        ((Term.closureF 12
          (Term.floordiv (Term.Primitive "y") (Term.Primitive "x"))).getD
          Term.Zero)) = false := by
  decide
